import Mathlib

/-!
Shallow embedding of the fluorine reactive-memoization runtime (src/lib.rs)
and of the cycle-handling part of its spreadsheet example
(examples/spreadsheet/main.rs).

Modelling conventions:

* `Rc<Dependent>` pointers are natural-number node ids in an explicit heap,
  an association list from id to `Dependent` record.  `Rc::ptr_eq` becomes
  equality of ids.
* A `Weak<Dependent>` is an id; `Weak::upgrade` succeeds exactly when the id
  is present in the heap (`hget` returns `some`); a dropped consumer is an
  id absent from the heap.
* `RefCell` borrow flags are threaded explicitly where re-entrancy matters:
  `mdEntries` carries the list of node ids whose `dependents` list is
  currently exclusively borrowed (a re-borrow is the `panic` outcome, as in
  `RefCell::borrow_mut`), and the spreadsheet state carries the list of
  cell indices whose `RefCell<RxFn>` is currently borrowed.
* The `u64` generation counters and the thread-local id counter are
  modelled as `Nat`; they grow by at most one per operation, so 64-bit
  wraparound is unreachable in any real execution and is not modelled.
* The recursion in `mark_dirty` is not structurally terminating on cyclic
  graphs, so `mdEntries` takes a fuel argument; `fuelOut` is a modelling
  artifact distinct from the `panic` outcome, which models a genuine
  `BorrowMutError`.
* User closures are modelled as Lean functions threading the heap plus an
  arbitrary environment `σ` (the closure's captured state); a closure
  returning `none` models a user closure that fails (panics/unwinds).
-/

/-- Mirror of `Dependent` (src/lib.rs:255-260): generation counter, dirty
flag and the downstream list of `(generation_at_link_time, weak consumer)`
pairs. -/
structure Dependent where
  generation : Nat
  dirty : Bool
  dependents : List (Nat × Nat)
deriving Repr, DecidableEq

/-- The heap of live `Dependent` nodes, keyed by node id. -/
abbrev Heap := List (Nat × Dependent)

/-- Look a node up in the heap; `none` models a dead weak reference. -/
def hget : Heap → Nat → Option Dependent
  | [], _ => none
  | (j, d) :: t, i => if j = i then some d else hget t i

/-- Update the node stored at an id (no-op when the id is absent). -/
def hset : Heap → Nat → Dependent → Heap
  | [], _, _ => []
  | (j, d) :: t, i, d' => if j = i then (j, d') :: t else (j, d) :: hset t i d'

theorem hget_hset_ne (h : Heap) (i j : Nat) (d : Dependent) (hne : j ≠ i) :
    hget (hset h i d) j = hget h j := by
  induction h with
  | nil => rfl
  | cons e t ih =>
    obtain ⟨k, dk⟩ := e
    by_cases hk : k = i
    · subst hk
      simp [hset, hget, hne, Ne.symm hne]
    · simp only [hset, if_neg hk, hget]
      by_cases hkj : k = j
      · simp [hkj]
      · simp [hkj, ih]

theorem hget_hset_self (h : Heap) (i : Nat) (d0 d : Dependent)
    (hl : hget h i = some d0) : hget (hset h i d) i = some d := by
  induction h with
  | nil => simp [hget] at hl
  | cons e t ih =>
    obtain ⟨k, dk⟩ := e
    by_cases hk : k = i
    · subst hk
      simp [hset, hget]
    · simp only [hget, if_neg hk] at hl
      simp only [hset, if_neg hk, hget, if_neg hk]
      exact ih hl

theorem hget_hset_isSome (h : Heap) (i : Nat) (d : Dependent) :
    (hget (hset h i d) i).isSome = (hget h i).isSome := by
  induction h with
  | nil => rfl
  | cons e t ih =>
    obtain ⟨k, dk⟩ := e
    by_cases hk : k = i
    · subst hk
      simp [hset, hget]
    · simp only [hset, if_neg hk, hget, if_neg hk]
      exact ih

/-- Generation of the node at an id, when live. -/
def genAt (h : Heap) (i : Nat) : Option Nat :=
  (hget h i).map Dependent.generation

/-- Dirty flag of the node at an id, when live. -/
def dirtyAt (h : Heap) (i : Nat) : Option Bool :=
  (hget h i).map Dependent.dirty

/-- Downstream list of the node at an id, when live. -/
def depsAt (h : Heap) (i : Nat) : Option (List (Nat × Nat)) :=
  (hget h i).map Dependent.dependents

/-- A back-edge entry `(link generation, consumer id)` is live and current:
the weak reference upgrades and the consumer's generation has not moved past
the generation recorded on the edge. -/
def curb (h : Heap) (e : Nat × Nat) : Bool :=
  match hget h e.2 with
  | none => false
  | some d => decide (d.generation ≤ e.1)

/-- Some entry of the list `l` names consumer `c` and is live and current. -/
def entryCur (h : Heap) (l : List (Nat × Nat)) (c : Nat) : Prop :=
  ∃ lg, (lg, c) ∈ l ∧ curb h (lg, c) = true

/-- There is a live, current back-edge from node `x`'s downstream list to
consumer `y`. -/
def curEdge (h : Heap) (x y : Nat) : Prop :=
  ∃ d lg, hget h x = some d ∧ (lg, y) ∈ d.dependents ∧ curb h (lg, y) = true

/-- Transitive reachability along live current back-edges. -/
inductive Reaches (h : Heap) : Nat → Nat → Prop
  | refl (x : Nat) : Reaches h x x
  | head {x y z : Nat} : curEdge h x y → Reaches h y z → Reaches h x z

/-! ## The tracking algorithm (src/lib.rs:304-327, `fn track`) -/

/-- The `retain_mut` pass of `track`: drops entries whose weak reference is
dead, rewrites the link generation of every entry whose target is the active
consumer `a` to `g`, and reports whether an appending push is still needed. -/
def trackEntries (h : Heap) (a g : Nat) : List (Nat × Nat) → List (Nat × Nat) × Bool
  | [] => ([], true)
  | (lg, c) :: rest =>
    let r := trackEntries h a g rest
    match hget h c with
    | none => r
    | some _ => if c = a then ((g, c) :: r.1, false) else ((lg, c) :: r.1, r.2)

/-- Mirror of `fn track`: the retain pass followed by the conditional push of
`(g, weak(a))`.  `a` is the id of `ctx.dependent`, `g` its current
generation. -/
def track (h : Heap) (a g : Nat) (l : List (Nat × Nat)) : List (Nat × Nat) :=
  let r := trackEntries h a g l
  if r.2 then r.1 ++ [(g, a)] else r.1

/-! ## The dirtying algorithm (src/lib.rs:284-302, `fn mark_dirty`) -/

/-- Outcome of a dirtying walk: normal completion with the new heap and the
retained list, a `BorrowMutError` panic from re-borrowing a `dependents`
list that an enclosing `retain` still holds exclusively, or fuel exhaustion
(modelling artifact only). -/
inductive MdRes where
  | ok (h : Heap) (l : List (Nat × Nat))
  | panic
  | fuelOut
deriving Repr, DecidableEq

/-- `dependent.dirty.set(true)`. -/
def markD (d : Dependent) : Dependent := { d with dirty := true }

/-- Store the retained list back into node `c` when the recursive `retain`
over its `dependents` finishes. -/
def writeback (h : Heap) (c : Nat) (l : List (Nat × Nat)) : Heap :=
  match hget h c with
  | some d => hset h c { d with dependents := l }
  | none => h

/-- Mirror of `mark_dirty`'s `retain` closure, processing the entries of one
`dependents` list.  `bor` is the set of node ids whose `dependents` list is
exclusively borrowed by an enclosing `retain`; recursing into one of those
is the `panic` outcome, exactly as `RefCell::borrow_mut` panics in the
source.  Dead entries and entries whose consumer's generation exceeds the
recorded link generation are dropped; every other consumer is marked dirty
and recursed into. -/
def mdEntries : Nat → Heap → List Nat → List (Nat × Nat) → MdRes
  | _, h, _, [] => .ok h []
  | 0, _, _, _ :: _ => .fuelOut
  | fuel + 1, h, bor, (lg, c) :: rest =>
    match hget h c with
    | none => mdEntries fuel h bor rest
    | some d =>
      if d.generation > lg then
        mdEntries fuel h bor rest
      else
        let h1 := hset h c (markD d)
        if c ∈ bor then .panic
        else
          match mdEntries fuel h1 (c :: bor) d.dependents with
          | .ok h2 l2 =>
            match mdEntries fuel (writeback h2 c l2) bor rest with
            | .ok h3 rest2 => .ok h3 ((lg, c) :: rest2)
            | .panic => .panic
            | .fuelOut => .fuelOut
          | .panic => .panic
          | .fuelOut => .fuelOut

/-! ## Value cell `Rx<T>` (src/lib.rs:36-74) -/

/-- Mirror of `Rx<T>`: a stored value and the downstream list. -/
structure RxM (T : Type) where
  value : T
  dependents : List (Nat × Nat)
deriving Repr, DecidableEq

/-- `Rx::new` (src/lib.rs:52-57). -/
def rxNew {T : Type} (v : T) : RxM T :=
  { value := v, dependents := [] }

/-- `Rx::get` (src/lib.rs:59-63): track, then return a borrow of the value.
`a` is the id of `ctx.dependent`; it is always live in the source (the
context holds an `Rc`), so the `none` case is unreachable and surfaces as
`none` here. -/
def rxGet {T : Type} (h : Heap) (a : Nat) (r : RxM T) : Option (T × RxM T) :=
  match hget h a with
  | none => none
  | some da => some (r.value, { r with dependents := track h a da.generation r.dependents })

/-- `Rx::get_untracked` (src/lib.rs:65-67). -/
def rxGetUntracked {T : Type} (r : RxM T) : T := r.value

/-- `Rx::get_mut` (src/lib.rs:69-73): mark the downstream graph dirty, then
hand out the value for mutation.  The caller's write through the returned
`&mut T` is performed by the caller and does not touch the reactive state,
so it is not part of this function.  `none` = the dirtying walk panicked. -/
def rxGetMut {T : Type} (fuel : Nat) (h : Heap) (r : RxM T) : Option (RxM T × Heap) :=
  match mdEntries fuel h [] r.dependents with
  | .ok h' l' => some ({ r with dependents := l' }, h')
  | _ => none

/-- `impl Clone for Rx` (src/lib.rs:42-49): clone the value, start with an
empty downstream list.  `T::clone` on plain data is the identity. -/
def rxClone {T : Type} (r : RxM T) : RxM T :=
  { value := r.value, dependents := [] }

/-! ## Sequence cell `RxVec<T>` (src/lib.rs:76-155) -/

/-- Mirror of `RxVecValue<T>`: a stable id and the stored value. -/
structure RxVecValue (T : Type) where
  id : Nat
  value : T
deriving Repr, DecidableEq

/-- Mirror of `RxVec<T>`.  The thread-local `NEXT_ID` counter is threaded
explicitly as a `Nat` argument `n` through every id-assigning operation. -/
structure RxVecM (T : Type) where
  id : Nat
  content : List (RxVecValue T)
  dependents : List (Nat × Nat)
deriving Repr, DecidableEq

/-- `RxVec::new` (src/lib.rs:119-125): fresh container id from the counter. -/
def rxVecNew (T : Type) (n : Nat) : RxVecM T × Nat :=
  ({ id := n, content := [], dependents := [] }, n + 1)

/-- `RxVec::push` (src/lib.rs:131-138): dirty first, then append an entry
with a fresh id.  `none` = the dirtying walk panicked. -/
def rxVecPush {T : Type} (fuel : Nat) (h : Heap) (v : RxVecM T) (x : T) (n : Nat) :
    Option (RxVecM T × Heap × Nat) :=
  match mdEntries fuel h [] v.dependents with
  | .ok h' l' =>
    some ({ v with dependents := l', content := v.content ++ [{ id := n, value := x }] }, h', n + 1)
  | _ => none

/-- `RxVec::as_slice` (src/lib.rs:140-144): track, then return the storage. -/
def rxVecAsSlice {T : Type} (h : Heap) (a : Nat) (v : RxVecM T) :
    Option (List (RxVecValue T) × RxVecM T) :=
  match hget h a with
  | none => none
  | some da => some (v.content, { v with dependents := track h a da.generation v.dependents })

/-- `RxVec::get` (src/lib.rs:146-150): track, then return the indexed value. -/
def rxVecGet {T : Type} (h : Heap) (a : Nat) (v : RxVecM T) (index : Nat) :
    Option (Option T × RxVecM T) :=
  match hget h a with
  | none => none
  | some da =>
    some ((v.content.get? index).map RxVecValue.value,
      { v with dependents := track h a da.generation v.dependents })

/-- The `content.iter().map(...)` of `impl Clone for RxVec`: clone every
entry with a fresh id drawn from the counter, in order. -/
def cloneEntries {T : Type} : List (RxVecValue T) → Nat → List (RxVecValue T) × Nat
  | [], n => ([], n)
  | v :: t, n =>
    let r := cloneEntries t (n + 1)
    ({ id := n, value := v.value } :: r.1, r.2)

/-- `impl Clone for RxVec` (src/lib.rs:95-110): fresh container id, fresh id
for every cloned entry, empty downstream list. -/
def rxVecClone {T : Type} (v : RxVecM T) (n : Nat) : RxVecM T × Nat :=
  let r := cloneEntries v.content (n + 1)
  ({ id := n, content := r.1, dependents := [] }, r.2)

/-- Iterated `RxVec::push` of a list of values, left to right. -/
def rxVecPushAll {T : Type} (fuel : Nat) (h : Heap) (v : RxVecM T) (xs : List T) (n : Nat) :
    Option (RxVecM T × Heap × Nat) :=
  match xs with
  | [] => some (v, h, n)
  | x :: rest =>
    match rxVecPush fuel h v x n with
    | none => none
    | some (v', h', n') => rxVecPushAll fuel h' v' rest n'

/-! ## Memoized function `RxFn<I, O>` (src/lib.rs:157-219) -/

/-- Mirror of `RxFn<I, O>`: the cached input and output, and the id of the
`Rc<Dependent>` in `this`. -/
structure RxFnState (I O : Type) where
  last_input : Option I
  result : Option O
  this : Nat
deriving Repr, DecidableEq

/-- `RxFn::new` (src/lib.rs:178-188): no cached input or output, and a fresh
`Dependent` allocated dirty at generation 0.  `n` is the fresh id. -/
def rxFnNew (I O : Type) (h : Heap) (n : Nat) : RxFnState I O × Heap × Nat :=
  ({ last_input := none, result := none, this := n },
    h ++ [(n, { generation := 0, dirty := true, dependents := [] })], n + 1)

/-- `impl Clone for RxFn` (src/lib.rs:171-175): `Self::new()`. -/
def rxFnClone (I O : Type) (h : Heap) (n : Nat) : RxFnState I O × Heap × Nat :=
  rxFnNew I O h n

/-- Outcome of `RxFn::call`: normal return (with the produced or cached
output, the new node state, heap, closure environment, and whether the
closure ran), a user-closure failure unwinding through `call` (carrying the
state already committed before the closure started), or one of the two
`unwrap` panics in `call` itself. -/
inductive CallRes (I O σ : Type) where
  | ok (o : O) (st : RxFnState I O) (h : Heap) (s : σ) (ran : Bool)
  | closureFail (st : RxFnState I O) (h : Heap) (s : σ)
  | unwrapPanic
deriving Repr, DecidableEq

/-- The re-run arm of `RxFn::call` (src/lib.rs:202-214): store the new
input, clear the dirty flag, bump the generation by one, then run the user
closure with a context bound to `this`, and finally store its output. -/
def rxFnRerun {I O σ : Type} (h1 : Heap) (s : σ) (st : RxFnState I O) (p : I)
    (cl : Nat → Heap → σ → I → Option (O × Heap × σ)) (d1 : Dependent) : CallRes I O σ :=
  let st1 := { st with last_input := some p }
  let h2 := hset h1 st.this { d1 with dirty := false, generation := d1.generation + 1 }
  match cl st.this h2 s p with
  | none => .closureFail st1 h2 s
  | some (o, h3, s3) => .ok o { st1 with result := some o } h3 s3 true

/-- Mirror of `RxFn::call` (src/lib.rs:190-218).  Step A tracks the caller's
active consumer `a` into `this.dependents`; Step B re-runs iff the node is
dirty or the stored input differs from `params` (the `unwrap` on a missing
`last_input` is the `unwrapPanic` outcome); otherwise the cached output is
returned (the `unwrap` on a missing `result` likewise).  `σ` is the
environment captured by the user closure. -/
def rxFnCall {I O σ : Type} [DecidableEq I] (h : Heap) (s : σ) (a : Nat)
    (st : RxFnState I O) (p : I)
    (cl : Nat → Heap → σ → I → Option (O × Heap × σ)) : CallRes I O σ :=
  match hget h st.this, hget h a with
  | some d, some da =>
    let d1 : Dependent := { d with dependents := track h a da.generation d.dependents }
    let h1 := hset h st.this d1
    if d1.dirty then rxFnRerun h1 s st p cl d1
    else
      match st.last_input with
      | none => .unwrapPanic
      | some li =>
        if li = p then
          match st.result with
          | none => .unwrapPanic
          | some o => .ok o st h1 s false
        else rxFnRerun h1 s st p cl d1
  | _, _ => .unwrapPanic

/-! ## Side-effect node `Effect` (src/lib.rs:221-249) -/

/-- Mirror of `Effect`: just the id of its `Rc<Dependent>`. -/
structure EffectState where
  this : Nat
deriving Repr, DecidableEq

/-- `Effect::new` (src/lib.rs:227-235). -/
def effectNew (h : Heap) (n : Nat) : EffectState × Heap × Nat :=
  ({ this := n }, h ++ [(n, { generation := 0, dirty := true, dependents := [] })], n + 1)

/-- Outcome of `Effect::call`: normal return (heap, environment, whether the
closure ran), a user-closure failure, or the unreachable dead-context case. -/
inductive EffRes (σ : Type) where
  | ok (h : Heap) (s : σ) (ran : Bool)
  | closureFail (h : Heap) (s : σ)
  | stuck
deriving Repr, DecidableEq

/-- Mirror of `Effect::call` (src/lib.rs:237-248): track, and re-run iff
dirty, clearing the flag and bumping the generation before the closure. -/
def effectCall {σ : Type} (h : Heap) (s : σ) (a : Nat) (e : EffectState)
    (cl : Nat → Heap → σ → Option (Heap × σ)) : EffRes σ :=
  match hget h e.this, hget h a with
  | some d, some da =>
    let d1 : Dependent := { d with dependents := track h a da.generation d.dependents }
    let h1 := hset h e.this d1
    if d1.dirty then
      let h2 := hset h1 e.this { d1 with dirty := false, generation := d1.generation + 1 }
      match cl e.this h2 s with
      | none => .closureFail h2 s
      | some (h3, s3) => .ok h3 s3 true
    else .ok h1 s false
  | _, _ => .stuck

/-! ## `Dependent` entry points (src/lib.rs:262-282) -/

/-- `Dependent::toplevel` (src/lib.rs:263-269): a fresh dirty node at
generation 0. -/
def toplevelDependent (h : Heap) (n : Nat) : Heap × Nat :=
  (h ++ [(n, { generation := 0, dirty := true, dependents := [] })], n + 1)

/-- `Dependent::set_clean` (src/lib.rs:279-281): clear the dirty flag. -/
def setClean (d : Dependent) : Dependent :=
  { d with dirty := false }

/-! ## Spreadsheet example (examples/spreadsheet/main.rs)

The cells, `eval_cell` and `eval` of the example, specialised as follows:
the `f64` cell values are an abstract type `V` with its four binary
operations and negation supplied as a record `VOps` (floating point itself
is not modelled), and the `Expr::Variable(ident)` string is modelled as the
already-parsed index (the tokenizer/parser are out of the specified scope).
-/

/-- `parser::BinaryOperator`. -/
inductive BinOp where
  | slash
  | star
  | plus
  | minus
deriving Repr, DecidableEq

/-- `parser::UnaryOperator`. -/
inductive UnOp where
  | minus
deriving Repr, DecidableEq

/-- `parser::Expr`, with values abstracted to `V` and variable identifiers
pre-parsed to indices. -/
inductive Expr (V : Type) where
  | binary (l : Expr V) (op : BinOp) (r : Expr V)
  | grouping (e : Expr V)
  | number (v : V)
  | unary (op : UnOp) (e : Expr V)
  | var (i : Nat)
deriving Repr, DecidableEq

/-- The arithmetic of the abstract value type `V` (stands in for `f64`). -/
structure VOps (V : Type) where
  div : V → V → V
  mul : V → V → V
  add : V → V → V
  sub : V → V → V
  neg : V → V

/-- One spreadsheet cell: the `Rx<Option<Expr>>` (value plus downstream
list) and the `RefCell<RxFn<(), Option<f64>>>` content.  The formula string
`Rc<str>` plays no role in evaluation and is omitted. -/
structure SheetCell (V : Type) where
  expr : Option (Expr V)
  exprDeps : List (Nat × Nat)
  fn : RxFnState Unit (Option V)
deriving Repr, DecidableEq

/-- The spreadsheet state threaded through evaluation: the cells, and the
indices of cells whose `RefCell<RxFn>` is currently exclusively borrowed
(`try_borrow_mut` fails exactly on those). -/
structure SheetSt (V : Type) where
  cells : List (SheetCell V)
  borrowed : List Nat
deriving Repr, DecidableEq

/-- Mirror of `fn eval` (examples/spreadsheet/main.rs:100-128), with the
state mutated by the `eval_other` callback threaded explicitly and the `?`
early returns made explicit. -/
def evalExpr {V W : Type} (ops : VOps V) (evalOther : Nat → W → Option V × W) :
    Expr V → W → Option V × W
  | .binary l op r, w =>
    match evalExpr ops evalOther l w with
    | (none, w1) => (none, w1)
    | (some lv, w1) =>
      match evalExpr ops evalOther r w1 with
      | (none, w2) => (none, w2)
      | (some rv, w2) =>
        (some (match op with
          | .slash => ops.div lv rv
          | .star => ops.mul lv rv
          | .plus => ops.add lv rv
          | .minus => ops.sub lv rv), w2)
  | .grouping e, w => evalExpr ops evalOther e w
  | .number v, w => (some v, w)
  | .unary .minus e, w =>
    match evalExpr ops evalOther e w with
    | (none, w1) => (none, w1)
    | (some v, w1) => (some (ops.neg v), w1)
  | .var i, w => evalOther i w

/-- Replace cell `i` of the sheet. -/
def setCell {V : Type} (s : SheetSt V) (i : Nat) (c : SheetCell V) : SheetSt V :=
  { s with cells := s.cells.set i c }

/-- Mirror of `Spreadsheet::eval_cell` (examples/spreadsheet/main.rs:31-47),
with a fuel argument for the recursion through cyclic formulas.  `a` is the
id of `ctx.dependent`.  When `try_borrow_mut` on the cell's `RxFn` fails
(the cell is already being evaluated, i.e. its index is in `borrowed`), the
fallback of main.rs:34-41 runs: the caller's consumer is tracked on the
cell's `Rx<Option<Expr>>` and `None` is returned without touching the
`RxFn`.  Otherwise the `RxFn` is borrowed for the duration of the `call`,
whose closure reads the cell's expression through a context bound to the
`RxFn`'s own dependent and evaluates it, resolving `$i` references by
recursive evaluation. -/
def evalCell {V : Type} [DecidableEq V] (ops : VOps V) :
    Nat → Nat → Nat → Heap × SheetSt V → Option V × (Heap × SheetSt V)
  | 0, _, _, w => (none, w)
  | fuel + 1, a, i, (h, s) =>
    match s.cells.get? i with
    | none => (none, (h, s))
    | some cell =>
      if i ∈ s.borrowed then
        match hget h a with
        | none => (none, (h, s))
        | some da =>
          (none, (h, setCell s i { cell with exprDeps := track h a da.generation cell.exprDeps }))
      else
        let s1 : SheetSt V := { s with borrowed := i :: s.borrowed }
        match rxFnCall h s1 a cell.fn ()
          (fun this h' s' _ =>
            match s'.cells.get? i with
            | none => some (none, h', s')
            | some cellNow =>
              match hget h' this with
              | none => some (none, h', s')
              | some dthis =>
                let s2 := setCell s' i
                  { cellNow with exprDeps := track h' this dthis.generation cellNow.exprDeps }
                match cellNow.expr with
                | none => some (none, h', s2)
                | some e =>
                  let r := evalExpr ops (fun j w => evalCell ops fuel this j w) e (h', s2)
                  some (r.1, r.2.1, r.2.2)) with
        | .ok o st' h' s' _ =>
          match s'.cells.get? i with
          | none => (o, (h', { s' with borrowed := s'.borrowed.erase i }))
          | some cellEnd =>
            (o, (h', { setCell s' i { cellEnd with fn := st' } with
                        borrowed := s'.borrowed.erase i }))
        | .closureFail _ h' s' => (none, (h', { s' with borrowed := s'.borrowed.erase i }))
        | .unwrapPanic => (none, (h, s))

/-! ## Basic lemmas about heap projections -/

theorem genAt_hset_of_gen (h : Heap) (c : Nat) (d d' : Dependent)
    (hl : hget h c = some d) (hg : d'.generation = d.generation) (i : Nat) :
    genAt (hset h c d') i = genAt h i := by
  by_cases hi : i = c
  · subst hi
    unfold genAt
    rw [hget_hset_self h i d d' hl, hl]
    simp [hg]
  · unfold genAt
    rw [hget_hset_ne h c i d' hi]

theorem dirtyAt_hset_of_dirty (h : Heap) (c : Nat) (d d' : Dependent)
    (hl : hget h c = some d) (hd : d'.dirty = d.dirty) (i : Nat) :
    dirtyAt (hset h c d') i = dirtyAt h i := by
  by_cases hi : i = c
  · subst hi
    unfold dirtyAt
    rw [hget_hset_self h i d d' hl, hl]
    simp [hd]
  · unfold dirtyAt
    rw [hget_hset_ne h c i d' hi]

theorem depsAt_hset_of_deps (h : Heap) (c : Nat) (d d' : Dependent)
    (hl : hget h c = some d) (hd : d'.dependents = d.dependents) (i : Nat) :
    depsAt (hset h c d') i = depsAt h i := by
  by_cases hi : i = c
  · subst hi
    unfold depsAt
    rw [hget_hset_self h i d d' hl, hl]
    simp [hd]
  · unfold depsAt
    rw [hget_hset_ne h c i d' hi]

theorem depsAt_hset_ne (h : Heap) (c : Nat) (d' : Dependent) (i : Nat) (hi : i ≠ c) :
    depsAt (hset h c d') i = depsAt h i := by
  unfold depsAt
  rw [hget_hset_ne h c i d' hi]

theorem dirtyAt_hset_markD (h : Heap) (c : Nat) (d : Dependent)
    (hl : hget h c = some d) (i : Nat) :
    dirtyAt (hset h c (markD d)) i = if i = c then some true else dirtyAt h i := by
  by_cases hi : i = c
  · subst hi
    unfold dirtyAt
    rw [hget_hset_self h i d (markD d) hl, if_pos rfl]
    rfl
  · unfold dirtyAt
    rw [hget_hset_ne h c i (markD d) hi, if_neg hi]

theorem genAt_writeback (h : Heap) (c : Nat) (l : List (Nat × Nat)) (i : Nat) :
    genAt (writeback h c l) i = genAt h i := by
  unfold writeback
  cases hc : hget h c with
  | none => rfl
  | some d =>
    dsimp only
    exact genAt_hset_of_gen h c d { d with dependents := l } hc rfl i

theorem dirtyAt_writeback (h : Heap) (c : Nat) (l : List (Nat × Nat)) (i : Nat) :
    dirtyAt (writeback h c l) i = dirtyAt h i := by
  unfold writeback
  cases hc : hget h c with
  | none => rfl
  | some d =>
    dsimp only
    exact dirtyAt_hset_of_dirty h c d { d with dependents := l } hc rfl i

theorem depsAt_writeback_ne (h : Heap) (c : Nat) (l : List (Nat × Nat)) (i : Nat) (hi : i ≠ c) :
    depsAt (writeback h c l) i = depsAt h i := by
  unfold writeback
  cases hc : hget h c with
  | none => rfl
  | some d =>
    dsimp only
    exact depsAt_hset_ne h c _ i hi

theorem depsAt_writeback_self (h : Heap) (c : Nat) (l : List (Nat × Nat)) (d : Dependent)
    (hl : hget h c = some d) : depsAt (writeback h c l) c = some l := by
  unfold writeback
  rw [hl]
  unfold depsAt
  rw [hget_hset_self h c d _ hl]
  rfl

theorem curb_none {h : Heap} {lg c : Nat} (hc : hget h c = none) : curb h (lg, c) = false := by
  simp [curb, hc]

theorem curb_some {h : Heap} {lg c : Nat} {d : Dependent} (hc : hget h c = some d) :
    curb h (lg, c) = decide (d.generation ≤ lg) := by
  simp [curb, hc]

theorem curb_congr {h1 h2 : Heap} (hg : ∀ i, genAt h1 i = genAt h2 i) (e : Nat × Nat) :
    curb h1 e = curb h2 e := by
  have he := hg e.2
  unfold genAt at he
  unfold curb
  cases ha : hget h1 e.2 with
  | none =>
    cases hb : hget h2 e.2 with
    | none => rfl
    | some d2 => rw [ha, hb] at he; simp at he
  | some d1 =>
    cases hb : hget h2 e.2 with
    | none => rw [ha, hb] at he; simp at he
    | some d2 =>
      rw [ha, hb] at he
      simp only [Option.map_some', Option.some.injEq] at he
      simp [he]

theorem entryCur_congr {h1 h2 : Heap} (hg : ∀ i, genAt h1 i = genAt h2 i)
    (l : List (Nat × Nat)) (c : Nat) : entryCur h1 l c ↔ entryCur h2 l c := by
  unfold entryCur
  constructor
  · rintro ⟨lg, hm, hc⟩
    exact ⟨lg, hm, by rw [← curb_congr hg (lg, c)]; exact hc⟩
  · rintro ⟨lg, hm, hc⟩
    exact ⟨lg, hm, by rw [curb_congr hg (lg, c)]; exact hc⟩

theorem curEdge_iff (h : Heap) (x y : Nat) :
    curEdge h x y ↔ ∃ l lg, depsAt h x = some l ∧ (lg, y) ∈ l ∧ curb h (lg, y) = true := by
  unfold curEdge depsAt
  constructor
  · rintro ⟨d, lg, hd, hm, hc⟩
    exact ⟨d.dependents, lg, by rw [hd]; rfl, hm, hc⟩
  · rintro ⟨l, lg, hd, hm, hc⟩
    cases hx : hget h x with
    | none => rw [hx] at hd; simp at hd
    | some d =>
      rw [hx] at hd
      simp only [Option.map_some', Option.some.injEq] at hd
      exact ⟨d, lg, rfl, by rw [hd]; exact hm, hc⟩

theorem curEdge_congr {h1 h2 : Heap} (hg : ∀ i, genAt h1 i = genAt h2 i)
    {x : Nat} (hdx : depsAt h1 x = depsAt h2 x) (y : Nat) :
    curEdge h1 x y ↔ curEdge h2 x y := by
  rw [curEdge_iff, curEdge_iff]
  constructor
  · rintro ⟨l, lg, hd, hm, hc⟩
    exact ⟨l, lg, by rw [← hdx]; exact hd, hm, by rw [← curb_congr hg (lg, y)]; exact hc⟩
  · rintro ⟨l, lg, hd, hm, hc⟩
    exact ⟨l, lg, by rw [hdx]; exact hd, hm, by rw [curb_congr hg (lg, y)]; exact hc⟩

theorem reaches_congr {h1 h2 : Heap} (he : ∀ x y, curEdge h1 x y ↔ curEdge h2 x y)
    {a b : Nat} (hr : Reaches h1 a b) : Reaches h2 a b := by
  induction hr with
  | refl x => exact .refl x
  | head hxy _ ih => exact .head ((he _ _).mp hxy) ih

/-! ## Structural lemmas about the dirtying walk -/

theorem md_genAt : ∀ (fuel : Nat) (h : Heap) (bor : List Nat) (l : List (Nat × Nat))
    (h' : Heap) (l' : List (Nat × Nat)), mdEntries fuel h bor l = .ok h' l' →
    ∀ i, genAt h' i = genAt h i := by
  intro fuel
  induction fuel with
  | zero =>
    intro h bor l h' l' hmd i
    cases l with
    | nil =>
      simp only [mdEntries, MdRes.ok.injEq] at hmd
      rw [← hmd.1]
    | cons e rest => simp [mdEntries] at hmd
  | succ fuel ih =>
    intro h bor l h' l' hmd i
    cases l with
    | nil =>
      simp only [mdEntries, MdRes.ok.injEq] at hmd
      rw [← hmd.1]
    | cons e rest =>
      obtain ⟨lg, c⟩ := e
      simp only [mdEntries] at hmd
      cases hc : hget h c with
      | none =>
        rw [hc] at hmd
        exact ih h bor rest h' l' hmd i
      | some d =>
        rw [hc] at hmd
        simp only at hmd
        by_cases hstale : d.generation > lg
        · rw [if_pos hstale] at hmd
          exact ih h bor rest h' l' hmd i
        · rw [if_neg hstale] at hmd
          by_cases hbor : c ∈ bor
          · rw [if_pos hbor] at hmd
            exact absurd hmd (by simp)
          · rw [if_neg hbor] at hmd
            cases hin : mdEntries fuel (hset h c (markD d)) (c :: bor) d.dependents with
            | ok h2 l2 =>
              rw [hin] at hmd
              dsimp only at hmd
              cases hrest : mdEntries fuel (writeback h2 c l2) bor rest with
              | ok h3 rest2 =>
                rw [hrest] at hmd
                simp only [MdRes.ok.injEq] at hmd
                rw [← hmd.1]
                calc genAt h3 i = genAt (writeback h2 c l2) i := ih _ _ _ _ _ hrest i
                  _ = genAt h2 i := genAt_writeback h2 c l2 i
                  _ = genAt (hset h c (markD d)) i := ih _ _ _ _ _ hin i
                  _ = genAt h i := genAt_hset_of_gen h c d (markD d) hc rfl i
              | panic => rw [hrest] at hmd; exact absurd hmd (by simp)
              | fuelOut => rw [hrest] at hmd; exact absurd hmd (by simp)
            | panic => rw [hin] at hmd; exact absurd hmd (by simp)
            | fuelOut => rw [hin] at hmd; exact absurd hmd (by simp)

theorem md_nil_ok_inv {fuel : Nat} {h : Heap} {bor : List Nat} {h' : Heap}
    {l' : List (Nat × Nat)} (hmd : mdEntries fuel h bor [] = .ok h' l') :
    h' = h ∧ l' = [] := by
  cases fuel with
  | zero =>
    simp only [mdEntries, MdRes.ok.injEq] at hmd
    exact ⟨hmd.1.symm, hmd.2.symm⟩
  | succ fuel =>
    simp only [mdEntries, MdRes.ok.injEq] at hmd
    exact ⟨hmd.1.symm, hmd.2.symm⟩

theorem md_cons_ok_inv {fuel : Nat} {h : Heap} {bor : List Nat} {lg c : Nat}
    {rest : List (Nat × Nat)} {h' : Heap} {l' : List (Nat × Nat)}
    (hmd : mdEntries (fuel + 1) h bor ((lg, c) :: rest) = .ok h' l') :
    (hget h c = none ∧ mdEntries fuel h bor rest = .ok h' l') ∨
    (∃ d, hget h c = some d ∧ d.generation > lg ∧ mdEntries fuel h bor rest = .ok h' l') ∨
    (∃ d h2 l2 rest2, hget h c = some d ∧ ¬ d.generation > lg ∧ c ∉ bor ∧
      mdEntries fuel (hset h c (markD d)) (c :: bor) d.dependents = .ok h2 l2 ∧
      mdEntries fuel (writeback h2 c l2) bor rest = .ok h' rest2 ∧
      l' = (lg, c) :: rest2) := by
  simp only [mdEntries] at hmd
  cases hc : hget h c with
  | none =>
    rw [hc] at hmd
    exact .inl ⟨rfl, hmd⟩
  | some d =>
    rw [hc] at hmd
    simp only at hmd
    by_cases hstale : d.generation > lg
    · rw [if_pos hstale] at hmd
      exact .inr (.inl ⟨d, rfl, hstale, hmd⟩)
    · rw [if_neg hstale] at hmd
      by_cases hbor : c ∈ bor
      · rw [if_pos hbor] at hmd
        exact absurd hmd (by simp)
      · rw [if_neg hbor] at hmd
        cases hin : mdEntries fuel (hset h c (markD d)) (c :: bor) d.dependents with
        | ok h2 l2 =>
          rw [hin] at hmd
          dsimp only at hmd
          cases hrest : mdEntries fuel (writeback h2 c l2) bor rest with
          | ok h3 rest2 =>
            rw [hrest] at hmd
            simp only [MdRes.ok.injEq] at hmd
            refine .inr (.inr ⟨d, h2, l2, rest2, rfl, hstale, hbor, hin, ?_, hmd.2.symm⟩)
            rw [← hmd.1]
            exact hrest
          | panic => rw [hrest] at hmd; exact absurd hmd (by simp)
          | fuelOut => rw [hrest] at hmd; exact absurd hmd (by simp)
        | panic => rw [hin] at hmd; exact absurd hmd (by simp)
        | fuelOut => rw [hin] at hmd; exact absurd hmd (by simp)

theorem md_depsAt_bor : ∀ (fuel : Nat) (h : Heap) (bor : List Nat) (l : List (Nat × Nat))
    (h' : Heap) (l' : List (Nat × Nat)), mdEntries fuel h bor l = .ok h' l' →
    ∀ i ∈ bor, depsAt h' i = depsAt h i := by
  intro fuel
  induction fuel with
  | zero =>
    intro h bor l h' l' hmd i hib
    cases l with
    | nil => rw [(md_nil_ok_inv hmd).1]
    | cons e rest => simp [mdEntries] at hmd
  | succ fuel ih =>
    intro h bor l h' l' hmd i hib
    cases l with
    | nil => rw [(md_nil_ok_inv hmd).1]
    | cons e rest =>
      obtain ⟨lg, c⟩ := e
      rcases md_cons_ok_inv hmd with ⟨hc, hrest⟩ | ⟨d, hc, hst, hrest⟩ |
        ⟨d, h2, l2, rest2, hc, hst, hbor, hin, hrest, hl⟩
      · exact ih h bor rest h' l' hrest i hib
      · exact ih h bor rest h' l' hrest i hib
      · have hic : i ≠ c := fun hh => hbor (hh ▸ hib)
        calc depsAt h' i = depsAt (writeback h2 c l2) i := ih _ _ _ _ _ hrest i hib
          _ = depsAt h2 i := depsAt_writeback_ne h2 c l2 i hic
          _ = depsAt (hset h c (markD d)) i := ih _ _ _ _ _ hin i (List.mem_cons_of_mem c hib)
          _ = depsAt h i := depsAt_hset_of_deps h c d (markD d) hc rfl i

theorem md_dirty_mono : ∀ (fuel : Nat) (h : Heap) (bor : List Nat) (l : List (Nat × Nat))
    (h' : Heap) (l' : List (Nat × Nat)), mdEntries fuel h bor l = .ok h' l' →
    ∀ i, dirtyAt h i = some true → dirtyAt h' i = some true := by
  intro fuel
  induction fuel with
  | zero =>
    intro h bor l h' l' hmd i hdi
    cases l with
    | nil => rw [(md_nil_ok_inv hmd).1]; exact hdi
    | cons e rest => simp [mdEntries] at hmd
  | succ fuel ih =>
    intro h bor l h' l' hmd i hdi
    cases l with
    | nil => rw [(md_nil_ok_inv hmd).1]; exact hdi
    | cons e rest =>
      obtain ⟨lg, c⟩ := e
      rcases md_cons_ok_inv hmd with ⟨hc, hrest⟩ | ⟨d, hc, hst, hrest⟩ |
        ⟨d, h2, l2, rest2, hc, hst, hbor, hin, hrest, hl⟩
      · exact ih h bor rest h' l' hrest i hdi
      · exact ih h bor rest h' l' hrest i hdi
      · have h1i : dirtyAt (hset h c (markD d)) i = some true := by
          rw [dirtyAt_hset_markD h c d hc i]
          by_cases hic : i = c
          · rw [if_pos hic]
          · rw [if_neg hic]; exact hdi
        have h2i : dirtyAt h2 i = some true := ih _ _ _ _ _ hin i h1i
        have hwi : dirtyAt (writeback h2 c l2) i = some true := by
          rw [dirtyAt_writeback]; exact h2i
        exact ih _ _ _ _ _ hrest i hwi

theorem md_filter : ∀ (fuel : Nat) (h : Heap) (bor : List Nat) (l : List (Nat × Nat))
    (h' : Heap) (l' : List (Nat × Nat)), mdEntries fuel h bor l = .ok h' l' →
    l' = l.filter (fun e => curb h e) := by
  intro fuel
  induction fuel with
  | zero =>
    intro h bor l h' l' hmd
    cases l with
    | nil => rw [(md_nil_ok_inv hmd).2]; rfl
    | cons e rest => simp [mdEntries] at hmd
  | succ fuel ih =>
    intro h bor l h' l' hmd
    cases l with
    | nil => rw [(md_nil_ok_inv hmd).2]; rfl
    | cons e rest =>
      obtain ⟨lg, c⟩ := e
      rcases md_cons_ok_inv hmd with ⟨hc, hrest⟩ | ⟨d, hc, hst, hrest⟩ |
        ⟨d, h2, l2, rest2, hc, hst, hbor, hin, hrest, hl⟩
      · rw [List.filter_cons_of_neg (by simp [curb_none hc])]
        exact ih h bor rest h' l' hrest
      · rw [List.filter_cons_of_neg (by simp [curb_some hc]; omega)]
        exact ih h bor rest h' l' hrest
      · have hgwb : ∀ i, genAt (writeback h2 c l2) i = genAt h i := by
          intro i
          calc genAt (writeback h2 c l2) i = genAt h2 i := genAt_writeback h2 c l2 i
            _ = genAt (hset h c (markD d)) i := md_genAt _ _ _ _ _ _ hin i
            _ = genAt h i := genAt_hset_of_gen h c d (markD d) hc rfl i
        rw [hl, List.filter_cons_of_pos (by simp [curb_some hc]; omega)]
        rw [ih _ _ _ _ _ hrest]
        congr 1
        exact List.filter_congr fun e _ => curb_congr hgwb e

theorem curEdge_hset_markD_iff (h : Heap) (c : Nat) (d : Dependent)
    (hc : hget h c = some d) (x y : Nat) :
    curEdge (hset h c (markD d)) x y ↔ curEdge h x y :=
  curEdge_congr (fun i => genAt_hset_of_gen h c d (markD d) hc rfl i)
    (depsAt_hset_of_deps h c d (markD d) hc rfl x) y

theorem curEdge_writeback_iff (h1 h2 : Heap) (c : Nat) (d2 : Dependent)
    (deps0 : List (Nat × Nat)) (l2 : List (Nat × Nat))
    (hg_in : ∀ i, genAt h2 i = genAt h1 i)
    (hd2 : hget h2 c = some d2)
    (hdeps2c : d2.dependents = deps0)
    (hl2 : l2 = deps0.filter (fun e => curb h1 e)) (x y : Nat) :
    curEdge (writeback h2 c l2) x y ↔ curEdge h2 x y := by
  by_cases hx : x = c
  · subst hx
    rw [curEdge_iff, curEdge_iff]
    have hdw : depsAt (writeback h2 x l2) x = some l2 := depsAt_writeback_self h2 x l2 d2 hd2
    have hdx : depsAt h2 x = some deps0 := by
      unfold depsAt
      rw [hd2, Option.map_some', hdeps2c]
    have hcw : ∀ e, curb (writeback h2 x l2) e = curb h2 e :=
      curb_congr fun i => genAt_writeback h2 x l2 i
    have hc12 : ∀ e, curb h2 e = curb h1 e := curb_congr hg_in
    constructor
    · rintro ⟨l, lg, hdl, hm, hcb⟩
      rw [hdw, Option.some.injEq] at hdl
      subst hdl
      rw [hl2, List.mem_filter] at hm
      exact ⟨deps0, lg, hdx, hm.1, by rw [← hcw (lg, y)]; exact hcb⟩
    · rintro ⟨l, lg, hdl, hm, hcb⟩
      rw [hdx, Option.some.injEq] at hdl
      subst hdl
      refine ⟨l2, lg, hdw, ?_, by rw [hcw (lg, y)]; exact hcb⟩
      rw [hl2, List.mem_filter]
      exact ⟨hm, by rw [← hc12 (lg, y)]; exact hcb⟩
  · exact curEdge_congr (fun i => genAt_writeback h2 c l2 i)
      (depsAt_writeback_ne h2 c l2 x hx) y

theorem md_curEdge : ∀ (fuel : Nat) (h : Heap) (bor : List Nat) (l : List (Nat × Nat))
    (h' : Heap) (l' : List (Nat × Nat)), mdEntries fuel h bor l = .ok h' l' →
    ∀ x y, curEdge h' x y ↔ curEdge h x y := by
  intro fuel
  induction fuel with
  | zero =>
    intro h bor l h' l' hmd x y
    cases l with
    | nil => rw [(md_nil_ok_inv hmd).1]
    | cons e rest => simp [mdEntries] at hmd
  | succ fuel ih =>
    intro h bor l h' l' hmd x y
    cases l with
    | nil => rw [(md_nil_ok_inv hmd).1]
    | cons e rest =>
      obtain ⟨lg, c⟩ := e
      rcases md_cons_ok_inv hmd with ⟨hc, hrest⟩ | ⟨d, hc, hst, hrest⟩ |
        ⟨d, h2, l2, rest2, hc, hst, hbor, hin, hrest, hl⟩
      · exact ih h bor rest h' l' hrest x y
      · exact ih h bor rest h' l' hrest x y
      · have hg_in : ∀ i, genAt h2 i = genAt (hset h c (markD d)) i :=
          md_genAt _ _ _ _ _ _ hin
        have hdeps2c : depsAt h2 c = some d.dependents := by
          rw [md_depsAt_bor _ _ _ _ _ _ hin c (List.mem_cons_self c bor)]
          unfold depsAt
          rw [hget_hset_self h c d (markD d) hc, Option.map_some']
          rfl
        obtain ⟨d2, hd2⟩ : ∃ d2, hget h2 c = some d2 := by
          cases hgc : hget h2 c with
          | none => unfold depsAt at hdeps2c; rw [hgc] at hdeps2c; simp at hdeps2c
          | some d2 => exact ⟨d2, rfl⟩
        have hd2deps : d2.dependents = d.dependents := by
          unfold depsAt at hdeps2c
          rw [hd2, Option.map_some', Option.some.injEq] at hdeps2c
          exact hdeps2c
        calc curEdge h' x y
            ↔ curEdge (writeback h2 c l2) x y := ih _ _ _ _ _ hrest x y
          _ ↔ curEdge h2 x y := curEdge_writeback_iff (hset h c (markD d)) h2 c d2
              d.dependents l2 hg_in hd2 hd2deps (md_filter _ _ _ _ _ _ hin) x y
          _ ↔ curEdge (hset h c (markD d)) x y := ih _ _ _ _ _ hin x y
          _ ↔ curEdge h x y := curEdge_hset_markD_iff h c d hc x y

theorem md_reach_dirty : ∀ (fuel : Nat) (h : Heap) (bor : List Nat) (l : List (Nat × Nat))
    (h' : Heap) (l' : List (Nat × Nat)), mdEntries fuel h bor l = .ok h' l' →
    ∀ c0, entryCur h l c0 → ∀ cf, Reaches h c0 cf → dirtyAt h' cf = some true := by
  intro fuel
  induction fuel with
  | zero =>
    intro h bor l h' l' hmd c0 hcur cf hr
    cases l with
    | nil => obtain ⟨lg0, hm, _⟩ := hcur; simp at hm
    | cons e rest => simp [mdEntries] at hmd
  | succ fuel ih =>
    intro h bor l h' l' hmd c0 hcur cf hr
    cases l with
    | nil => obtain ⟨lg0, hm, _⟩ := hcur; simp at hm
    | cons e rest =>
      obtain ⟨lg, c⟩ := e
      obtain ⟨lg0, hm, hcb0⟩ := hcur
      rcases md_cons_ok_inv hmd with ⟨hc, hrest⟩ | ⟨d, hc, hst, hrest⟩ |
        ⟨d, h2, l2, rest2, hc, hst, hbor, hin, hrest, hl⟩
      · rcases List.mem_cons.mp hm with heq | hmr
        · obtain ⟨rfl, rfl⟩ := Prod.mk.injEq .. ▸ heq
          rw [curb_none hc] at hcb0
          exact absurd hcb0 (by simp)
        · exact ih h bor rest h' l' hrest c0 ⟨lg0, hmr, hcb0⟩ cf hr
      · rcases List.mem_cons.mp hm with heq | hmr
        · obtain ⟨rfl, rfl⟩ := Prod.mk.injEq .. ▸ heq
          rw [curb_some hc] at hcb0
          simp at hcb0
          omega
        · exact ih h bor rest h' l' hrest c0 ⟨lg0, hmr, hcb0⟩ cf hr
      · have hg1 : ∀ i, genAt (hset h c (markD d)) i = genAt h i :=
          genAt_hset_of_gen h c d (markD d) hc rfl
        have hiff1 : ∀ x y, curEdge (hset h c (markD d)) x y ↔ curEdge h x y :=
          curEdge_hset_markD_iff h c d hc
        have hg_in : ∀ i, genAt h2 i = genAt (hset h c (markD d)) i :=
          md_genAt _ _ _ _ _ _ hin
        have hdeps2c : depsAt h2 c = some d.dependents := by
          rw [md_depsAt_bor _ _ _ _ _ _ hin c (List.mem_cons_self c bor)]
          unfold depsAt
          rw [hget_hset_self h c d (markD d) hc, Option.map_some']
          rfl
        obtain ⟨d2, hd2⟩ : ∃ d2, hget h2 c = some d2 := by
          cases hgc : hget h2 c with
          | none => unfold depsAt at hdeps2c; rw [hgc] at hdeps2c; simp at hdeps2c
          | some d2 => exact ⟨d2, rfl⟩
        have hd2deps : d2.dependents = d.dependents := by
          unfold depsAt at hdeps2c
          rw [hd2, Option.map_some', Option.some.injEq] at hdeps2c
          exact hdeps2c
        have hiff_wb : ∀ x y, curEdge (writeback h2 c l2) x y ↔ curEdge h x y := by
          intro x y
          calc curEdge (writeback h2 c l2) x y
              ↔ curEdge h2 x y := curEdge_writeback_iff (hset h c (markD d)) h2 c d2
                d.dependents l2 hg_in hd2 hd2deps (md_filter _ _ _ _ _ _ hin) x y
            _ ↔ curEdge (hset h c (markD d)) x y := md_curEdge _ _ _ _ _ _ hin x y
            _ ↔ curEdge h x y := hiff1 x y
        have hgwb : ∀ i, genAt (writeback h2 c l2) i = genAt h i := by
          intro i
          calc genAt (writeback h2 c l2) i = genAt h2 i := genAt_writeback h2 c l2 i
            _ = genAt (hset h c (markD d)) i := hg_in i
            _ = genAt h i := hg1 i
        rcases List.mem_cons.mp hm with heq | hmr
        · obtain ⟨rfl, rfl⟩ := Prod.mk.injEq .. ▸ heq
          cases hr with
          | refl =>
            have h1d : dirtyAt (hset h c0 (markD d)) c0 = some true := by
              rw [dirtyAt_hset_markD h c0 d hc c0, if_pos rfl]
            have h2d : dirtyAt h2 c0 = some true := md_dirty_mono _ _ _ _ _ _ hin c0 h1d
            have hwd : dirtyAt (writeback h2 c0 l2) c0 = some true := by
              rw [dirtyAt_writeback]; exact h2d
            exact md_dirty_mono _ _ _ _ _ _ hrest c0 hwd
          | head hedge hr' =>
            obtain ⟨de, lg', hde, hmem, hcbe⟩ := hedge
            rw [hc, Option.some.injEq] at hde
            subst hde
            rename_i y
            have hcury : entryCur (hset h c0 (markD d)) d.dependents y :=
              ⟨lg', hmem, by rw [curb_congr hg1 (lg', y)]; exact hcbe⟩
            have hry : Reaches (hset h c0 (markD d)) y cf :=
              reaches_congr (fun x y => (hiff1 x y).symm) hr'
            have h2d : dirtyAt h2 cf = some true :=
              ih _ _ _ _ _ hin y hcury cf hry
            have hwd : dirtyAt (writeback h2 c0 l2) cf = some true := by
              rw [dirtyAt_writeback]; exact h2d
            exact md_dirty_mono _ _ _ _ _ _ hrest cf hwd
        · have hcur' : entryCur (writeback h2 c l2) rest c0 :=
            (entryCur_congr hgwb rest c0).mpr ⟨lg0, hmr, hcb0⟩
          have hr' : Reaches (writeback h2 c l2) c0 cf :=
            reaches_congr (fun x y => (hiff_wb x y).symm) hr
          exact ih _ _ _ _ _ hrest c0 hcur' cf hr'

/-! ## Lemmas about the tracking pass -/

theorem trackEntries_eq {h : Heap} {a : Nat} {da : Dependent} (ha : hget h a = some da)
    (g : Nat) : ∀ l, trackEntries h a g l =
      ((l.filter (fun e => (hget h e.2).isSome)).map (fun e => if e.2 = a then (g, a) else e),
       !(l.any (fun e => decide (e.2 = a)))) := by
  intro l
  induction l with
  | nil => rfl
  | cons e rest ih =>
    obtain ⟨lg, c⟩ := e
    simp only [trackEntries, ih]
    cases hc : hget h c with
    | none =>
      have hca : c ≠ a := fun hh => by rw [hh, ha] at hc; exact absurd hc (by simp)
      simp [hc, hca]
    | some dc =>
      by_cases hca : c = a
      · subst hca
        simp [hc]
      · simp [hc, hca]

theorem track_eq {h : Heap} {a : Nat} {da : Dependent} (ha : hget h a = some da)
    (g : Nat) (l : List (Nat × Nat)) :
    track h a g l =
      if l.any (fun e => decide (e.2 = a)) then
        (l.filter (fun e => (hget h e.2).isSome)).map (fun e => if e.2 = a then (g, a) else e)
      else
        (l.filter (fun e => (hget h e.2).isSome)).map
          (fun e => if e.2 = a then (g, a) else e) ++ [(g, a)] := by
  unfold track
  rw [trackEntries_eq ha g l]
  cases hany : l.any (fun e => decide (e.2 = a)) with
  | false => simp
  | true => simp

theorem track_countP {h : Heap} {a : Nat} {da : Dependent} (ha : hget h a = some da)
    (g : Nat) (l : List (Nat × Nat))
    (hcount : l.countP (fun e => decide (e.2 = a)) ≤ 1) :
    (track h a g l).countP (fun e => decide (e.2 = a)) = 1 := by
  rw [track_eq ha g l]
  have hmapcount : ∀ l0 : List (Nat × Nat),
      (l0.map (fun e => if e.2 = a then (g, a) else e)).countP (fun e => decide (e.2 = a)) =
        l0.countP (fun e => decide (e.2 = a)) := by
    intro l0
    rw [List.countP_map]
    apply List.countP_congr
    intro e _
    by_cases hea : e.2 = a
    · simp [hea]
    · simp [hea]
  have hfiltercount :
      (l.filter (fun e => (hget h e.2).isSome)).countP (fun e => decide (e.2 = a)) =
        l.countP (fun e => decide (e.2 = a) && (hget h e.2).isSome) :=
    List.countP_filter _ _ _
  have hlivea : ∀ e : Nat × Nat,
      (decide (e.2 = a) && (hget h e.2).isSome) = true ↔ decide (e.2 = a) = true := by
    intro e
    by_cases hea : e.2 = a
    · rw [hea, ha]
      simp
    · simp [hea]
  cases hany : l.any (fun e => decide (e.2 = a)) with
  | false =>
    rw [if_neg (by simp [hany]), List.countP_append, hmapcount, hfiltercount,
      List.countP_congr fun e _ => hlivea e]
    have hz : l.countP (fun e => decide (e.2 = a)) = 0 := by
      rw [List.countP_eq_zero]
      intro e he
      rw [List.any_eq_false] at hany
      exact hany e he
    rw [hz]
    simp
  | true =>
    rw [if_pos (by simp [hany]), hmapcount, hfiltercount,
      List.countP_congr fun e _ => hlivea e]
    have hpos : 0 < l.countP (fun e => decide (e.2 = a)) := by
      rw [List.countP_pos_iff]
      rw [List.any_eq_true] at hany
      exact hany
    omega

/-! ## Lemmas about `RxFn::call` and `Effect::call` -/

theorem rxFnRerun_ok_inv {I O σ : Type} {h1 : Heap} {s : σ} {st : RxFnState I O} {p : I}
    {cl : Nat → Heap → σ → I → Option (O × Heap × σ)} {d1 : Dependent}
    {o : O} {st1 : RxFnState I O} {h' : Heap} {s1 : σ} {ran : Bool}
    (hr : rxFnRerun h1 s st p cl d1 = .ok o st1 h' s1 ran) :
    ran = true ∧ st1 = { last_input := some p, result := some o, this := st.this } := by
  unfold rxFnRerun at hr
  dsimp only at hr
  split at hr
  · exact absurd hr (by simp)
  · simp only [CallRes.ok.injEq] at hr
    obtain ⟨rfl, hst, _, _, hran⟩ := hr
    exact ⟨hran.symm, hst.symm⟩

theorem rxFnRerun_fail_inv {I O σ : Type} {h1 : Heap} {s : σ} {st : RxFnState I O} {p : I}
    {cl : Nat → Heap → σ → I → Option (O × Heap × σ)} {d1 : Dependent}
    {st1 : RxFnState I O} {h' : Heap} {s1 : σ}
    (hr : rxFnRerun h1 s st p cl d1 = .closureFail st1 h' s1) :
    st1 = { last_input := some p, result := st.result, this := st.this } ∧
    h' = hset h1 st.this { d1 with dirty := false, generation := d1.generation + 1 } ∧
    s1 = s := by
  unfold rxFnRerun at hr
  dsimp only at hr
  split at hr
  · simp only [CallRes.closureFail.injEq] at hr
    exact ⟨hr.1.symm, hr.2.1.symm, hr.2.2.symm⟩
  · exact absurd hr (by simp)

theorem rxFn_ok_ran_iff {I O σ : Type} [DecidableEq I] {h : Heap} {s : σ} {a : Nat}
    {st : RxFnState I O} {p : I} {cl : Nat → Heap → σ → I → Option (O × Heap × σ)}
    {d da : Dependent} (hthis : hget h st.this = some d) (ha : hget h a = some da)
    {o : O} {st1 : RxFnState I O} {h1 : Heap} {s1 : σ} {ran : Bool}
    (hok : rxFnCall h s a st p cl = .ok o st1 h1 s1 ran) :
    ran = true ↔ (d.dirty = true ∨ st.last_input ≠ some p) := by
  unfold rxFnCall at hok
  rw [hthis, ha] at hok
  dsimp only at hok
  split at hok
  · rename_i hd
    rw [(rxFnRerun_ok_inv hok).1]
    simp [hd]
  · rename_i hd
    split at hok
    · exact absurd hok (by simp)
    · rename_i li hli
      split at hok
      · rename_i hlip
        split at hok
        · exact absurd hok (by simp)
        · rename_i o0 ho0
          simp only [CallRes.ok.injEq] at hok
          obtain ⟨rfl, rfl, rfl, rfl, hran⟩ := hok
          rw [← hran]
          simp only [Bool.false_eq_true, false_iff]
          push_neg
          constructor
          · simpa using hd
          · rw [hli, hlip]
      · rename_i hlip
        rw [(rxFnRerun_ok_inv hok).1]
        simp only [true_iff]
        right
        rw [hli]
        simp [hlip]

theorem rxFn_ok_hit_inv {I O σ : Type} [DecidableEq I] {h : Heap} {s : σ} {a : Nat}
    {st : RxFnState I O} {p : I} {cl : Nat → Heap → σ → I → Option (O × Heap × σ)}
    {d da : Dependent} (hthis : hget h st.this = some d) (ha : hget h a = some da)
    {o : O} {st1 : RxFnState I O} {h1 : Heap} {s1 : σ}
    (hok : rxFnCall h s a st p cl = .ok o st1 h1 s1 false) :
    st.result = some o ∧ st1 = st ∧ s1 = s ∧
    h1 = hset h st.this { d with dependents := track h a da.generation d.dependents } := by
  unfold rxFnCall at hok
  rw [hthis, ha] at hok
  dsimp only at hok
  split at hok
  · exact absurd (rxFnRerun_ok_inv hok).1 (by simp)
  · split at hok
    · exact absurd hok (by simp)
    · rename_i li hli
      split at hok
      · split at hok
        · exact absurd hok (by simp)
        · rename_i o0 ho0
          simp only [CallRes.ok.injEq] at hok
          obtain ⟨rfl, rfl, rfl, rfl, _⟩ := hok
          exact ⟨ho0, rfl, rfl, rfl⟩
      · exact absurd (rxFnRerun_ok_inv hok).1 (by simp)

theorem rxFn_ok_post {I O σ : Type} [DecidableEq I] {h : Heap} {s : σ} {a : Nat}
    {st : RxFnState I O} {p : I} {cl : Nat → Heap → σ → I → Option (O × Heap × σ)}
    {d da : Dependent} (hthis : hget h st.this = some d) (ha : hget h a = some da)
    {o : O} {st1 : RxFnState I O} {h1 : Heap} {s1 : σ} {ran : Bool}
    (hok : rxFnCall h s a st p cl = .ok o st1 h1 s1 ran) :
    st1.last_input = some p ∧ st1.result = some o ∧ st1.this = st.this := by
  unfold rxFnCall at hok
  rw [hthis, ha] at hok
  dsimp only at hok
  split at hok
  · rw [(rxFnRerun_ok_inv hok).2]
    exact ⟨rfl, rfl, rfl⟩
  · split at hok
    · exact absurd hok (by simp)
    · rename_i li hli
      split at hok
      · rename_i hlip
        split at hok
        · exact absurd hok (by simp)
        · rename_i o0 ho0
          simp only [CallRes.ok.injEq] at hok
          obtain ⟨rfl, rfl, rfl, rfl, _⟩ := hok
          rw [hli, hlip]
          exact ⟨rfl, ho0, rfl⟩
      · rw [(rxFnRerun_ok_inv hok).2]
        exact ⟨rfl, rfl, rfl⟩

theorem rxFn_hit_eq {I O σ : Type} [DecidableEq I] {h : Heap} (s : σ) {a : Nat}
    {st : RxFnState I O} {p : I} (cl : Nat → Heap → σ → I → Option (O × Heap × σ))
    {d da : Dependent} (hthis : hget h st.this = some d) (ha : hget h a = some da)
    (hd : d.dirty = false) {li : I} (hlast : st.last_input = some li) (hlip : li = p)
    {o : O} (hres : st.result = some o) :
    rxFnCall h s a st p cl =
      .ok o st (hset h st.this { d with dependents := track h a da.generation d.dependents })
        s false := by
  unfold rxFnCall
  rw [hthis, ha]
  dsimp only
  rw [hd, hlast, hres]
  simp [hlip]

theorem rxFn_fail_inv {I O σ : Type} [DecidableEq I] {h : Heap} {s : σ} {a : Nat}
    {st : RxFnState I O} {p : I} {cl : Nat → Heap → σ → I → Option (O × Heap × σ)}
    {d da : Dependent} (hthis : hget h st.this = some d) (ha : hget h a = some da)
    {st1 : RxFnState I O} {h1 : Heap} {s1 : σ}
    (hfail : rxFnCall h s a st p cl = .closureFail st1 h1 s1) :
    (d.dirty = true ∨ st.last_input ≠ some p) ∧
    st1 = { last_input := some p, result := st.result, this := st.this } ∧
    h1 = hset (hset h st.this { d with dependents := track h a da.generation d.dependents })
      st.this { generation := d.generation + 1, dirty := false,
                dependents := track h a da.generation d.dependents } ∧
    s1 = s := by
  unfold rxFnCall at hfail
  rw [hthis, ha] at hfail
  dsimp only at hfail
  split at hfail
  · rename_i hd
    obtain ⟨h1', h2', h3'⟩ := rxFnRerun_fail_inv hfail
    exact ⟨.inl hd, h1', h2', h3'⟩
  · rename_i hd
    split at hfail
    · exact absurd hfail (by simp)
    · rename_i li hli
      split at hfail
      · split at hfail
        · exact absurd hfail (by simp)
        · exact absurd hfail (by simp)
      · rename_i hlip
        obtain ⟨h1', h2', h3'⟩ := rxFnRerun_fail_inv hfail
        refine ⟨.inr ?_, h1', h2', h3'⟩
        rw [hli]
        simp [hlip]

theorem rxFn_no_unwrapPanic {I O σ : Type} [DecidableEq I] {h : Heap} {s : σ} {a : Nat}
    {st : RxFnState I O} {p : I} {cl : Nat → Heap → σ → I → Option (O × Heap × σ)}
    {d da : Dependent} (hthis : hget h st.this = some d) (ha : hget h a = some da)
    (hinv : d.dirty = false → st.last_input.isSome ∧ st.result.isSome)
    (hcl : ∀ n h' s' p', cl n h' s' p' ≠ none) :
    rxFnCall h s a st p cl ≠ .unwrapPanic := by
  have hrerun : ∀ (h1 : Heap) (d1 : Dependent), rxFnRerun h1 s st p cl d1 ≠ .unwrapPanic := by
    intro h1 d1
    unfold rxFnRerun
    dsimp only
    split
    · rename_i hnone
      exact absurd hnone (hcl _ _ _ _)
    · simp
  unfold rxFnCall
  rw [hthis, ha]
  dsimp only
  split
  · exact hrerun _ _
  · rename_i hd
    have hd' : d.dirty = false := by
      cases hdd : d.dirty with
      | false => rfl
      | true => exact absurd hdd hd
    obtain ⟨hl, hr⟩ := hinv hd'
    split
    · rename_i hnone
      rw [hnone] at hl
      exact absurd hl (by simp)
    · rename_i li hli
      split
      · split
        · rename_i hnone
          rw [hnone] at hr
          exact absurd hr (by simp)
        · simp
      · exact hrerun _ _

theorem eff_ok_false_inv {σ : Type} {h : Heap} {s : σ} {a : Nat} {e : EffectState}
    {cl : Nat → Heap → σ → Option (Heap × σ)} {d da : Dependent}
    (hthis : hget h e.this = some d) (ha : hget h a = some da)
    {h1 : Heap} {s1 : σ}
    (hok : effectCall h s a e cl = .ok h1 s1 false) :
    d.dirty = false ∧
    h1 = hset h e.this { d with dependents := track h a da.generation d.dependents } ∧
    s1 = s := by
  unfold effectCall at hok
  rw [hthis, ha] at hok
  dsimp only at hok
  split at hok
  · rename_i hd
    split at hok
    · exact absurd hok (by simp)
    · simp only [EffRes.ok.injEq] at hok
      exact absurd hok.2.2 (by simp)
  · rename_i hd
    simp only [EffRes.ok.injEq] at hok
    refine ⟨by cases hdd : d.dirty with | false => rfl | true => exact absurd hdd hd, ?_, hok.2.1.symm⟩
    rw [← hok.1]

theorem eff_fail_inv {σ : Type} {h : Heap} {s : σ} {a : Nat} {e : EffectState}
    {cl : Nat → Heap → σ → Option (Heap × σ)} {d da : Dependent}
    (hthis : hget h e.this = some d) (ha : hget h a = some da)
    {h1 : Heap} {s1 : σ}
    (hfail : effectCall h s a e cl = .closureFail h1 s1) :
    d.dirty = true ∧
    h1 = hset (hset h e.this { d with dependents := track h a da.generation d.dependents })
      e.this { generation := d.generation + 1, dirty := false,
               dependents := track h a da.generation d.dependents } ∧
    s1 = s := by
  unfold effectCall at hfail
  rw [hthis, ha] at hfail
  dsimp only at hfail
  split at hfail
  · rename_i hd
    split at hfail
    · simp only [EffRes.closureFail.injEq] at hfail
      exact ⟨hd, hfail.1.symm, hfail.2.symm⟩
    · exact absurd hfail (by simp)
  · exact absurd hfail (by simp)

/-! ## Claim theorems -/

/-- C3: a tracked read (`Rx::get`, `RxVec::as_slice`, `RxVec::get`, and the
same `track` call inside `RxFn::call` and `Effect::call`) leaves the
source's downstream list containing the active consumer `a` exactly once,
tagged with `a`'s current generation: an existing entry for `a` is updated
in place, otherwise `(g, weak(a))` is appended; dead entries are dropped,
all other live entries are preserved unchanged in order; and the stored
value is returned unmodified. -/
theorem c3_track_registers_consumer {T : Type} (h : Heap) (a : Nat) (da : Dependent)
    (ha : hget h a = some da) (g : Nat) (l : List (Nat × Nat))
    (hcount : l.countP (fun e => decide (e.2 = a)) ≤ 1)
    (r : RxM T) (v : RxVecM T) (idx : Nat) :
    (track h a g l =
      if l.any (fun e => decide (e.2 = a)) then
        (l.filter (fun e => (hget h e.2).isSome)).map (fun e => if e.2 = a then (g, a) else e)
      else
        (l.filter (fun e => (hget h e.2).isSome)).map
          (fun e => if e.2 = a then (g, a) else e) ++ [(g, a)]) ∧
    (track h a g l).countP (fun e => decide (e.2 = a)) = 1 ∧
    rxGet h a r = some (r.value, { r with dependents := track h a da.generation r.dependents }) ∧
    rxVecAsSlice h a v =
      some (v.content, { v with dependents := track h a da.generation v.dependents }) ∧
    rxVecGet h a v idx = some ((v.content.get? idx).map RxVecValue.value,
      { v with dependents := track h a da.generation v.dependents }) := by
  refine ⟨track_eq ha g l, track_countP ha g l hcount, ?_, ?_, ?_⟩
  · unfold rxGet
    rw [ha]
  · unfold rxVecAsSlice
    rw [ha]
  · unfold rxVecGet
    rw [ha]

/-- Witness for C3 at a concrete input: consumer 0 (generation 3) tracked
into a list holding a stale-tagged entry for 0 and a dead entry for 5. -/
theorem c3_witness :
    (hget [(0, Dependent.mk 3 false [])] 0 = some (Dependent.mk 3 false []) ∧
      ([(1, 0), (2, 5)] : List (Nat × Nat)).countP (fun e => decide (e.2 = 0)) ≤ 1) ∧
    (track [(0, Dependent.mk 3 false [])] 0 3 [(1, 0), (2, 5)] =
      if ([(1, 0), (2, 5)] : List (Nat × Nat)).any (fun e => decide (e.2 = 0)) then
        (([(1, 0), (2, 5)] : List (Nat × Nat)).filter
          (fun e => (hget [(0, Dependent.mk 3 false [])] e.2).isSome)).map
            (fun e => if e.2 = 0 then (3, 0) else e)
      else
        (([(1, 0), (2, 5)] : List (Nat × Nat)).filter
          (fun e => (hget [(0, Dependent.mk 3 false [])] e.2).isSome)).map
            (fun e => if e.2 = 0 then (3, 0) else e) ++ [(3, 0)]) ∧
    (track [(0, Dependent.mk 3 false [])] 0 3 [(1, 0), (2, 5)]).countP
      (fun e => decide (e.2 = 0)) = 1 ∧
    rxGet [(0, Dependent.mk 3 false [])] 0 (RxM.mk 7 [(1, 0), (2, 5)]) =
      some (7, RxM.mk 7 (track [(0, Dependent.mk 3 false [])] 0 3 [(1, 0), (2, 5)])) ∧
    rxVecAsSlice [(0, Dependent.mk 3 false [])] 0 ((RxVecM.mk 9 [] [] : RxVecM Nat)) =
      some ([], RxVecM.mk 9 [] (track [(0, Dependent.mk 3 false [])] 0 3 [])) ∧
    rxVecGet [(0, Dependent.mk 3 false [])] 0 ((RxVecM.mk 9 [] [] : RxVecM Nat)) 0 =
      some (none, RxVecM.mk 9 [] (track [(0, Dependent.mk 3 false [])] 0 3 [])) :=
  ⟨⟨by decide, by decide⟩,
    c3_track_registers_consumer [(0, Dependent.mk 3 false [])] 0 (Dependent.mk 3 false [])
      (by decide) 3 [(1, 0), (2, 5)] (by decide) (RxM.mk 7 [(1, 0), (2, 5)])
      (RxVecM.mk 9 [] [] : RxVecM Nat) 0⟩

/-- C2: a mutation (`Rx::get_mut` / `RxVec::push`) walks the downstream
list: every entry whose weak reference is dead or whose consumer's
generation exceeds the recorded link generation is removed (the list
becomes exactly the filter of live, current entries), and every consumer
reachable from a live current entry through live current back-edges —
i.e. every memoized node that last read the source directly or
transitively — is left with `dirty = true`.  No user closure runs during
the pass: every node's generation is unchanged. -/
theorem c2_mutation_dirties_transitively {T : Type} (fuel : Nat) (h hm hp : Heap)
    (r r' : RxM T) (hmut : rxGetMut fuel h r = some (r', hm))
    (v v' : RxVecM T) (x : T) (n n' : Nat)
    (hpush : rxVecPush fuel h v x n = some (v', hp, n')) :
    (r'.dependents = r.dependents.filter (fun e => curb h e) ∧
      r'.value = r.value ∧
      (∀ i, genAt hm i = genAt h i) ∧
      (∀ c0, entryCur h r.dependents c0 → ∀ cf, Reaches h c0 cf →
        dirtyAt hm cf = some true)) ∧
    (v'.dependents = v.dependents.filter (fun e => curb h e) ∧
      v'.content = v.content ++ [{ id := n, value := x }] ∧
      (∀ i, genAt hp i = genAt h i) ∧
      (∀ c0, entryCur h v.dependents c0 → ∀ cf, Reaches h c0 cf →
        dirtyAt hp cf = some true)) := by
  constructor
  · unfold rxGetMut at hmut
    cases hmd : mdEntries fuel h [] r.dependents with
    | ok h1 l1 =>
      rw [hmd] at hmut
      simp only [Option.some.injEq] at hmut
      obtain ⟨hr', rfl⟩ : ({ r with dependents := l1 } = r' ∧ h1 = hm) :=
        ⟨congrArg Prod.fst hmut, congrArg Prod.snd hmut⟩
      rw [← hr']
      exact ⟨md_filter _ _ _ _ _ _ hmd, rfl, md_genAt _ _ _ _ _ _ hmd,
        md_reach_dirty _ _ _ _ _ _ hmd⟩
    | panic => rw [hmd] at hmut; exact absurd hmut (by simp)
    | fuelOut => rw [hmd] at hmut; exact absurd hmut (by simp)
  · unfold rxVecPush at hpush
    cases hmd : mdEntries fuel h [] v.dependents with
    | ok h1 l1 =>
      rw [hmd] at hpush
      simp only [Option.some.injEq] at hpush
      obtain ⟨hv', hrest⟩ : ({ v with dependents := l1, content := v.content ++
          [{ id := n, value := x }] } = v' ∧ (h1, n + 1) = (hp, n')) :=
        ⟨congrArg Prod.fst hpush, congrArg Prod.snd hpush⟩
      obtain ⟨rfl, _⟩ : (h1 = hp ∧ n + 1 = n') :=
        ⟨congrArg Prod.fst hrest, congrArg Prod.snd hrest⟩
      rw [← hv']
      exact ⟨md_filter _ _ _ _ _ _ hmd, rfl, md_genAt _ _ _ _ _ _ hmd,
        md_reach_dirty _ _ _ _ _ _ hmd⟩
    | panic => rw [hmd] at hpush; exact absurd hpush (by simp)
    | fuelOut => rw [hmd] at hpush; exact absurd hpush (by simp)

/-- Witness for C2 at a concrete input: a source read by consumer 2, which
consumer 1 in turn reads; mutating the source dirties both. -/
theorem c2_witness :
    (rxGetMut 10 [(1, Dependent.mk 0 false []), (2, Dependent.mk 0 false [(0, 1)])]
        (RxM.mk 7 [(0, 2)]) =
      some (RxM.mk 7 [(0, 2)],
        [(1, Dependent.mk 0 true []), (2, Dependent.mk 0 true [(0, 1)])]) ∧
      rxVecPush 10 [(1, Dependent.mk 0 false []), (2, Dependent.mk 0 false [(0, 1)])]
        (RxVecM.mk 9 [] [(0, 2)]) (5 : Nat) 11 =
      some (RxVecM.mk 9 [RxVecValue.mk 11 5] [(0, 2)],
        [(1, Dependent.mk 0 true []), (2, Dependent.mk 0 true [(0, 1)])], 12)) ∧
    ((RxM.mk 7 [(0, 2)] : RxM Nat).dependents.filter
        (fun e => curb [(1, Dependent.mk 0 false []), (2, Dependent.mk 0 false [(0, 1)])] e) =
        [(0, 2)] ∧
      (∀ c0, entryCur [(1, Dependent.mk 0 false []), (2, Dependent.mk 0 false [(0, 1)])]
          [(0, 2)] c0 →
        ∀ cf, Reaches [(1, Dependent.mk 0 false []), (2, Dependent.mk 0 false [(0, 1)])] c0 cf →
        dirtyAt [(1, Dependent.mk 0 true []), (2, Dependent.mk 0 true [(0, 1)])] cf =
          some true) ∧
      dirtyAt [(1, Dependent.mk 0 true []), (2, Dependent.mk 0 true [(0, 1)])] 1 = some true) := by
  have happ := c2_mutation_dirties_transitively 10
    [(1, Dependent.mk 0 false []), (2, Dependent.mk 0 false [(0, 1)])]
    [(1, Dependent.mk 0 true []), (2, Dependent.mk 0 true [(0, 1)])]
    [(1, Dependent.mk 0 true []), (2, Dependent.mk 0 true [(0, 1)])]
    (RxM.mk 7 [(0, 2)]) (RxM.mk 7 [(0, 2)]) (by decide)
    (RxVecM.mk 9 [] [(0, 2)]) (RxVecM.mk 9 [RxVecValue.mk 11 5] [(0, 2)]) 5 11 12 (by decide)
  refine ⟨⟨by decide, by decide⟩, by decide, happ.1.2.2.2, ?_⟩
  refine happ.1.2.2.2 2 ⟨0, by decide, by decide⟩ 1 ?_
  exact .head ⟨Dependent.mk 0 false [(0, 1)], 0, by decide, by decide, by decide⟩ (.refl 1)

/-- C6: refuted — `mark_dirty` DOES hold the exclusive borrow of a
`dependents` list across the recursive call (`dependents.borrow_mut()
.retain(..)` recurses inside the retain closure), so on a dependency graph
in which a `Dependent` is transitively reachable from its own downstream
list through live, current back-edges, the walk re-enters an exclusively
borrowed `RefCell` and panics with a `BorrowMutError`.  The heap below is
exactly the state produced by the program in the C6 report (toplevel = 1,
F = 2 at generation 1, G = 3 at generation 2, with mutually current edges
F → G and G → F); walking the source list `[(1, 2)]` panics. -/
theorem c6_mark_dirty_reborrow_panics :
    mdEntries 10
      [(1, Dependent.mk 0 false []),
       (2, Dependent.mk 1 false [(0, 1), (2, 3)]),
       (3, Dependent.mk 2 false [(1, 2), (0, 1)])]
      [] [(1, 2)] = .panic ∧
    curb [(1, Dependent.mk 0 false []),
          (2, Dependent.mk 1 false [(0, 1), (2, 3)]),
          (3, Dependent.mk 2 false [(1, 2), (0, 1)])] (2, 3) = true ∧
    curb [(1, Dependent.mk 0 false []),
          (2, Dependent.mk 1 false [(0, 1), (2, 3)]),
          (3, Dependent.mk 2 false [(1, 2), (0, 1)])] (1, 2) = true := by
  decide

/-- C1: `RxFn::call` runs the user closure iff the node is dirty, or no
`last_input` is stored, or the stored input differs from the given one;
otherwise the closure is not invoked (`ran = false`), the node state is
untouched and the cached output is returned.  Moreover for a successive
call with an equal input on the resulting state, as long as no dirtying
pass has set the node's dirty flag in the meantime (dirtying passes being
the only operations of the core that set it), the second call is a cache
hit returning the same output with the closure not invoked. -/
theorem c1_memo_runs_iff {I O σ : Type} [DecidableEq I] {h : Heap} {s : σ} {a : Nat}
    {st : RxFnState I O} {p : I} {cl : Nat → Heap → σ → I → Option (O × Heap × σ)}
    {d da : Dependent} (hthis : hget h st.this = some d) (ha : hget h a = some da)
    {o : O} {st1 : RxFnState I O} {h1 : Heap} {s1 : σ} {ran : Bool}
    (hok : rxFnCall h s a st p cl = .ok o st1 h1 s1 ran) :
    (ran = true ↔ (d.dirty = true ∨ st.last_input ≠ some p)) ∧
    (ran = false → st.result = some o ∧ st1 = st ∧ s1 = s) ∧
    (∀ (h2 : Heap) (s2 : σ) (d2 da2 : Dependent),
      hget h2 st1.this = some d2 → d2.dirty = false → hget h2 a = some da2 →
      rxFnCall h2 s2 a st1 p cl =
        .ok o st1
          (hset h2 st1.this { d2 with dependents := track h2 a da2.generation d2.dependents })
          s2 false) := by
  refine ⟨rxFn_ok_ran_iff hthis ha hok, ?_, ?_⟩
  · intro hran
    subst hran
    obtain ⟨hres, hst, hs, _⟩ := rxFn_ok_hit_inv hthis ha hok
    exact ⟨hres, hst, hs⟩
  · intro h2 s2 d2 da2 hthis2 hd2 ha2
    obtain ⟨hl1, hr1, _⟩ := rxFn_ok_post hthis ha hok
    exact rxFn_hit_eq s2 cl hthis2 ha2 hd2 hl1 rfl hr1

/-- Witness for C1 at a concrete input: a first call on a fresh (dirty)
node runs the closure; the immediately following call with the same input
is a cache hit returning the same output. -/
theorem c1_witness :
    (hget [(0, Dependent.mk 0 true []), (1, Dependent.mk 0 true [])] 1 =
        some (Dependent.mk 0 true []) ∧
      rxFnCall [(0, Dependent.mk 0 true []), (1, Dependent.mk 0 true [])] () 0
        (RxFnState.mk none none 1) 3 (fun _ h s p => some (p * 2, h, s)) =
      .ok 6 (RxFnState.mk (some 3) (some 6) 1)
        [(0, Dependent.mk 0 true []), (1, Dependent.mk 1 false [(0, 0)])] () true) ∧
    (true = true ↔ ((Dependent.mk 0 true []).dirty = true ∨
      (RxFnState.mk none none 1 : RxFnState Nat Nat).last_input ≠ some 3)) ∧
    rxFnCall [(0, Dependent.mk 0 true []), (1, Dependent.mk 1 false [(0, 0)])] () 0
      (RxFnState.mk (some 3) (some 6) 1) 3 (fun _ h s p => some (p * 2, h, s)) =
    .ok 6 (RxFnState.mk (some 3) (some 6) 1)
      (hset [(0, Dependent.mk 0 true []), (1, Dependent.mk 1 false [(0, 0)])] 1
        (Dependent.mk 1 false
          (track [(0, Dependent.mk 0 true []), (1, Dependent.mk 1 false [(0, 0)])] 0 0 [(0, 0)])))
      () false := by
  have hthis : hget [(0, Dependent.mk 0 true []), (1, Dependent.mk 0 true [])]
      (RxFnState.mk (none : Option Nat) (none : Option Nat) 1).this =
      some (Dependent.mk 0 true []) := by decide
  have ha : hget [(0, Dependent.mk 0 true []), (1, Dependent.mk 0 true [])] 0 =
      some (Dependent.mk 0 true []) := by decide
  have hok : rxFnCall [(0, Dependent.mk 0 true []), (1, Dependent.mk 0 true [])] () 0
      (RxFnState.mk none none 1) 3 (fun _ h s p => some (p * 2, h, s)) =
      .ok 6 (RxFnState.mk (some 3) (some 6) 1)
        [(0, Dependent.mk 0 true []), (1, Dependent.mk 1 false [(0, 0)])] () true := by decide
  have happ := c1_memo_runs_iff hthis ha hok
  refine ⟨⟨by decide, by decide⟩, happ.1, ?_⟩
  exact happ.2.2 [(0, Dependent.mk 0 true []), (1, Dependent.mk 1 false [(0, 0)])] ()
    (Dependent.mk 1 false [(0, 0)]) (Dependent.mk 0 true []) (by decide) (by decide) (by decide)

/-- C4: in every re-run of `RxFn::call` the new input is stored, the dirty
flag cleared and the generation bumped by exactly one, all strictly before
the user closure is invoked; hence when the closure fails to return, the
node is left with the new `last_input`, `dirty = false`, the bumped
generation, and the previous cached output.  All other nodes' generations
and dirty flags are untouched. -/
theorem c4_rerun_commits_before_closure {I O σ : Type} [DecidableEq I] {h : Heap} {s : σ}
    {a : Nat} {st : RxFnState I O} {p : I} {cl : Nat → Heap → σ → I → Option (O × Heap × σ)}
    {d da : Dependent} (hthis : hget h st.this = some d) (ha : hget h a = some da)
    {st1 : RxFnState I O} {h1 : Heap} {s1 : σ}
    (hfail : rxFnCall h s a st p cl = .closureFail st1 h1 s1) :
    (d.dirty = true ∨ st.last_input ≠ some p) ∧
    st1.last_input = some p ∧
    st1.result = st.result ∧
    genAt h1 st.this = some (d.generation + 1) ∧
    dirtyAt h1 st.this = some false ∧
    (∀ i, i ≠ st.this → genAt h1 i = genAt h i) ∧
    (∀ i, i ≠ st.this → dirtyAt h1 i = dirtyAt h i) := by
  obtain ⟨hcond, hst1, hh1, _⟩ := rxFn_fail_inv hthis ha hfail
  have hget1 : hget (hset h st.this
      { d with dependents := track h a da.generation d.dependents }) st.this =
      some { d with dependents := track h a da.generation d.dependents } :=
    hget_hset_self h st.this d _ hthis
  refine ⟨hcond, by rw [hst1], by rw [hst1], ?_, ?_, ?_, ?_⟩
  · rw [hh1]
    unfold genAt
    rw [hget_hset_self _ st.this _ _ hget1]
    rfl
  · rw [hh1]
    unfold dirtyAt
    rw [hget_hset_self _ st.this _ _ hget1]
    rfl
  · intro i hi
    rw [hh1]
    unfold genAt
    rw [hget_hset_ne _ st.this i _ hi, hget_hset_ne _ st.this i _ hi]
  · intro i hi
    rw [hh1]
    unfold dirtyAt
    rw [hget_hset_ne _ st.this i _ hi, hget_hset_ne _ st.this i _ hi]

/-- Witness for C4 at a concrete input: a failing closure on a fresh node
leaves the node clean at generation 1 with the input stored and no cached
output. -/
theorem c4_witness :
    (hget [(0, Dependent.mk 0 true []), (1, Dependent.mk 0 true [])] 1 =
        some (Dependent.mk 0 true []) ∧
      rxFnCall [(0, Dependent.mk 0 true []), (1, Dependent.mk 0 true [])] () 0
        (RxFnState.mk (none : Option Nat) (none : Option Nat) 1) 3
        (fun _ _ _ _ => none) =
      .closureFail (RxFnState.mk (some 3) none 1)
        [(0, Dependent.mk 0 true []), (1, Dependent.mk 1 false [(0, 0)])] ()) ∧
    ((Dependent.mk 0 true []).dirty = true ∨
      (RxFnState.mk (none : Option Nat) (none : Option Nat) 1).last_input ≠ some 3) ∧
    (RxFnState.mk (some 3) (none : Option Nat) 1).last_input = some 3 ∧
    (RxFnState.mk (some 3) (none : Option Nat) 1).result =
      (RxFnState.mk (none : Option Nat) (none : Option Nat) 1).result ∧
    genAt [(0, Dependent.mk 0 true []), (1, Dependent.mk 1 false [(0, 0)])] 1 = some 1 ∧
    dirtyAt [(0, Dependent.mk 0 true []), (1, Dependent.mk 1 false [(0, 0)])] 1 = some false := by
  have hthis : hget [(0, Dependent.mk 0 true []), (1, Dependent.mk 0 true [])]
      (RxFnState.mk (none : Option Nat) (none : Option Nat) 1).this =
      some (Dependent.mk 0 true []) := by decide
  have ha : hget [(0, Dependent.mk 0 true []), (1, Dependent.mk 0 true [])] 0 =
      some (Dependent.mk 0 true []) := by decide
  have hfail : rxFnCall [(0, Dependent.mk 0 true []), (1, Dependent.mk 0 true [])] () 0
      (RxFnState.mk (none : Option Nat) (none : Option Nat) 1) 3
      (fun _ _ _ _ => (none : Option (Nat × Heap × Unit))) =
      .closureFail (RxFnState.mk (some 3) none 1)
        [(0, Dependent.mk 0 true []), (1, Dependent.mk 1 false [(0, 0)])] () := by decide
  have happ := c4_rerun_commits_before_closure hthis ha hfail
  exact ⟨⟨by decide, hfail⟩, happ.1, happ.2.1, happ.2.2.1,
    by rw [show (1 : Nat) = (RxFnState.mk (some 3) (none : Option Nat) 1).this from rfl]
       exact happ.2.2.2.1,
    by rw [show (1 : Nat) = (RxFnState.mk (some 3) (none : Option Nat) 1).this from rfl]
       exact happ.2.2.2.2.1⟩

theorem hget_append_fresh (h : Heap) (n : Nat) (d : Dependent) (hn : hget h n = none) :
    hget (h ++ [(n, d)]) n = some d := by
  induction h with
  | nil => simp [hget]
  | cons e t ih =>
    obtain ⟨k, dk⟩ := e
    by_cases hk : k = n
    · subst hk
      simp [hget] at hn
    · simp only [hget, if_neg hk] at hn
      simp only [List.cons_append, hget, if_neg hk]
      exact ih hn

/-- C9: provided every user closure returns normally, the invariant
"`dirty = false` implies both `last_input` and `result` are `Some`" makes
the two `unwrap`s inside `RxFn::call` unreachable; the invariant holds of a
fresh node (`RxFn::new` starts dirty), is re-established by every
successful call (both fields are `Some` afterwards), and is preserved by
dirtying walks (which never clear a dirty flag). -/
theorem c9_unwraps_never_panic {I O σ : Type} [DecidableEq I] {h : Heap} {s : σ} {a : Nat}
    {st : RxFnState I O} {p : I} {cl : Nat → Heap → σ → I → Option (O × Heap × σ)}
    {d da : Dependent} (hthis : hget h st.this = some d) (ha : hget h a = some da)
    (hinv : d.dirty = false → st.last_input.isSome ∧ st.result.isSome)
    (hcl : ∀ n h' s' p', cl n h' s' p' ≠ none) :
    rxFnCall h s a st p cl ≠ .unwrapPanic ∧
    (∀ o st1 h1 s1 ran, rxFnCall h s a st p cl = .ok o st1 h1 s1 ran →
      st1.last_input.isSome ∧ st1.result.isSome) ∧
    (∀ (h0 : Heap) (n : Nat), hget h0 n = none →
      dirtyAt (rxFnNew I O h0 n).2.1 n = some true) ∧
    (∀ fuel bor l h' l', mdEntries fuel h bor l = .ok h' l' →
      dirtyAt h' st.this = some false → st.last_input.isSome ∧ st.result.isSome) := by
  refine ⟨rxFn_no_unwrapPanic hthis ha hinv hcl, ?_, ?_, ?_⟩
  · intro o st1 h1 s1 ran hok
    obtain ⟨hl, hr, _⟩ := rxFn_ok_post hthis ha hok
    rw [hl, hr]
    exact ⟨rfl, rfl⟩
  · intro h0 n hn
    unfold rxFnNew dirtyAt
    rw [hget_append_fresh h0 n _ hn]
    rfl
  · intro fuel bor l h' l' hmd hdf
    cases hd : d.dirty with
    | false => exact hinv hd
    | true =>
      have hdh : dirtyAt h st.this = some true := by
        unfold dirtyAt
        rw [hthis]
        simp [hd]
      rw [md_dirty_mono _ _ _ _ _ _ hmd st.this hdh] at hdf
      exact absurd hdf (by simp)

/-- Witness for C9 at a concrete input: a fresh (dirty) node with a total
closure; the call does not hit either `unwrap` and re-establishes the
invariant. -/
theorem c9_witness :
    (hget [(0, Dependent.mk 0 true []), (1, Dependent.mk 0 true [])] 1 =
        some (Dependent.mk 0 true []) ∧
      ((Dependent.mk 0 true []).dirty = false →
        (RxFnState.mk (none : Option Nat) (none : Option Nat) 1).last_input.isSome ∧
        (RxFnState.mk (none : Option Nat) (none : Option Nat) 1).result.isSome)) ∧
    rxFnCall [(0, Dependent.mk 0 true []), (1, Dependent.mk 0 true [])] () 0
      (RxFnState.mk (none : Option Nat) (none : Option Nat) 1) 3
      (fun _ h s p => some (p * 2, h, s)) ≠ .unwrapPanic := by
  have hthis : hget [(0, Dependent.mk 0 true []), (1, Dependent.mk 0 true [])]
      (RxFnState.mk (none : Option Nat) (none : Option Nat) 1).this =
      some (Dependent.mk 0 true []) := by decide
  have ha : hget [(0, Dependent.mk 0 true []), (1, Dependent.mk 0 true [])] 0 =
      some (Dependent.mk 0 true []) := by decide
  have hinv : (Dependent.mk 0 true []).dirty = false →
      (RxFnState.mk (none : Option Nat) (none : Option Nat) 1).last_input.isSome ∧
      (RxFnState.mk (none : Option Nat) (none : Option Nat) 1).result.isSome := by decide
  have hcl : ∀ (n : Nat) (h' : Heap) (s' : Unit) (p' : Nat),
      (fun (_ : Nat) (h : Heap) (s : Unit) (p : Nat) => some (p * 2, h, s)) n h' s' p' ≠ none :=
    fun _ _ _ _ hc => Option.noConfusion hc
  exact ⟨⟨hthis, hinv⟩, (c9_unwraps_never_panic hthis ha hinv hcl).1⟩

/-- C7, counterexample: `Dependent::set_clean` (src/lib.rs:279-281) is a
core operation that clears the dirty flag to false while leaving the
generation unchanged — i.e. without a re-run — contradicting the claim that
the re-run is the only operation of the core that clears the flag. -/
theorem c7_counterexample :
    (Dependent.mk 5 true [(0, 9)]).dirty = true ∧
    setClean (Dependent.mk 5 true [(0, 9)]) = Dependent.mk 5 false [(0, 9)] := by
  decide

/-- C7, amended: generations are unchanged by dirtying walks and by
non-re-running calls, and are bumped by exactly one on each re-run (observed
on the heap handed to the closure); the dirty flag, once set by a dirtying
pass, is never cleared by a walk, is cleared together with the generation
bump when the node re-runs, and is additionally cleared — with the
generation unchanged — by the explicit `Dependent::set_clean`; re-run and
`set_clean` are the only clearing operations. -/
theorem c7_generation_dirty_discipline (I O σ : Type) [DecidableEq I] :
    (∀ (fuel : Nat) (h : Heap) (bor : List Nat) (l : List (Nat × Nat)) h' l',
      mdEntries fuel h bor l = .ok h' l' →
      (∀ i, genAt h' i = genAt h i) ∧
      (∀ i, dirtyAt h i = some true → dirtyAt h' i = some true)) ∧
    (∀ (h : Heap) (s : σ) (a : Nat) (st : RxFnState I O) (p : I)
      (cl : Nat → Heap → σ → I → Option (O × Heap × σ)) (d da : Dependent)
      (o : O) (st1 : RxFnState I O) (h1 : Heap) (s1 : σ),
      hget h st.this = some d → hget h a = some da →
      rxFnCall h s a st p cl = .ok o st1 h1 s1 false →
      (∀ i, genAt h1 i = genAt h i) ∧ (∀ i, dirtyAt h1 i = dirtyAt h i)) ∧
    (∀ (h : Heap) (s : σ) (a : Nat) (st : RxFnState I O) (p : I)
      (cl : Nat → Heap → σ → I → Option (O × Heap × σ)) (d da : Dependent)
      (st1 : RxFnState I O) (h1 : Heap) (s1 : σ),
      hget h st.this = some d → hget h a = some da →
      rxFnCall h s a st p cl = .closureFail st1 h1 s1 →
      genAt h1 st.this = some (d.generation + 1) ∧ dirtyAt h1 st.this = some false ∧
      (∀ i, i ≠ st.this → genAt h1 i = genAt h i ∧ dirtyAt h1 i = dirtyAt h i)) ∧
    (∀ (h : Heap) (s : σ) (a : Nat) (e : EffectState)
      (cl : Nat → Heap → σ → Option (Heap × σ)) (d da : Dependent) (h1 : Heap) (s1 : σ),
      hget h e.this = some d → hget h a = some da →
      effectCall h s a e cl = .ok h1 s1 false →
      (∀ i, genAt h1 i = genAt h i) ∧ (∀ i, dirtyAt h1 i = dirtyAt h i)) ∧
    (∀ (h : Heap) (s : σ) (a : Nat) (e : EffectState)
      (cl : Nat → Heap → σ → Option (Heap × σ)) (d da : Dependent) (h1 : Heap) (s1 : σ),
      hget h e.this = some d → hget h a = some da →
      effectCall h s a e cl = .closureFail h1 s1 →
      d.dirty = true ∧ genAt h1 e.this = some (d.generation + 1) ∧
      dirtyAt h1 e.this = some false ∧
      (∀ i, i ≠ e.this → genAt h1 i = genAt h i ∧ dirtyAt h1 i = dirtyAt h i)) ∧
    (∀ d : Dependent, (setClean d).generation = d.generation ∧ (setClean d).dirty = false) := by
  refine ⟨?_, ?_, ?_, ?_, ?_, fun d => ⟨rfl, rfl⟩⟩
  · intro fuel h bor l h' l' hmd
    exact ⟨md_genAt _ _ _ _ _ _ hmd, md_dirty_mono _ _ _ _ _ _ hmd⟩
  · intro h s a st p cl d da o st1 h1 s1 hthis ha hok
    obtain ⟨_, _, _, hh1⟩ := rxFn_ok_hit_inv hthis ha hok
    rw [hh1]
    exact ⟨genAt_hset_of_gen h st.this d _ hthis rfl,
      dirtyAt_hset_of_dirty h st.this d _ hthis rfl⟩
  · intro h s a st p cl d da st1 h1 s1 hthis ha hfail
    obtain ⟨_, _, hh1, _⟩ := rxFn_fail_inv hthis ha hfail
    have hget1 : hget (hset h st.this
        { d with dependents := track h a da.generation d.dependents }) st.this =
        some { d with dependents := track h a da.generation d.dependents } :=
      hget_hset_self h st.this d _ hthis
    refine ⟨?_, ?_, ?_⟩
    · rw [hh1]
      unfold genAt
      rw [hget_hset_self _ st.this _ _ hget1]
      rfl
    · rw [hh1]
      unfold dirtyAt
      rw [hget_hset_self _ st.this _ _ hget1]
      rfl
    · intro i hi
      rw [hh1]
      unfold genAt dirtyAt
      rw [hget_hset_ne _ st.this i _ hi, hget_hset_ne _ st.this i _ hi]
      exact ⟨rfl, rfl⟩
  · intro h s a e cl d da h1 s1 hthis ha hok
    obtain ⟨_, hh1, _⟩ := eff_ok_false_inv hthis ha hok
    rw [hh1]
    exact ⟨genAt_hset_of_gen h e.this d _ hthis rfl,
      dirtyAt_hset_of_dirty h e.this d _ hthis rfl⟩
  · intro h s a e cl d da h1 s1 hthis ha hfail
    obtain ⟨hd, hh1, _⟩ := eff_fail_inv hthis ha hfail
    have hget1 : hget (hset h e.this
        { d with dependents := track h a da.generation d.dependents }) e.this =
        some { d with dependents := track h a da.generation d.dependents } :=
      hget_hset_self h e.this d _ hthis
    refine ⟨hd, ?_, ?_, ?_⟩
    · rw [hh1]
      unfold genAt
      rw [hget_hset_self _ e.this _ _ hget1]
      rfl
    · rw [hh1]
      unfold dirtyAt
      rw [hget_hset_self _ e.this _ _ hget1]
      rfl
    · intro i hi
      rw [hh1]
      unfold genAt dirtyAt
      rw [hget_hset_ne _ e.this i _ hi, hget_hset_ne _ e.this i _ hi]
      exact ⟨rfl, rfl⟩

/-- Witness for C7 at a concrete input: a concrete dirtying walk leaves
every generation unchanged, and `setClean` leaves the generation of a
concrete node unchanged. -/
theorem c7_witness :
    (mdEntries 10 [(1, Dependent.mk 4 false []), (2, Dependent.mk 0 false [(4, 1)])]
        [] [(0, 2)] =
      .ok [(1, Dependent.mk 4 true []), (2, Dependent.mk 0 true [(4, 1)])] [(0, 2)]) ∧
    (∀ i, genAt [(1, Dependent.mk 4 true []), (2, Dependent.mk 0 true [(4, 1)])] i =
      genAt [(1, Dependent.mk 4 false []), (2, Dependent.mk 0 false [(4, 1)])] i) ∧
    (setClean (Dependent.mk 7 true [])).generation = (Dependent.mk 7 true []).generation := by
  have hmd : mdEntries 10 [(1, Dependent.mk 4 false []), (2, Dependent.mk 0 false [(4, 1)])]
      [] [(0, 2)] =
      .ok [(1, Dependent.mk 4 true []), (2, Dependent.mk 0 true [(4, 1)])] [(0, 2)] := by
    decide
  have happ := c7_generation_dirty_discipline Nat Nat Unit
  exact ⟨hmd, (happ.1 10 _ [] [(0, 2)] _ [(0, 2)] hmd).1, (happ.2.2.2.2.2 _).1⟩

theorem cloneEntries_spec {T : Type} : ∀ (l : List (RxVecValue T)) (n : Nat),
    (cloneEntries l n).2 = n + l.length ∧
    ((cloneEntries l n).1).map RxVecValue.value = l.map RxVecValue.value ∧
    ((cloneEntries l n).1).map RxVecValue.id = List.range' n l.length := by
  intro l
  induction l with
  | nil => intro n; exact ⟨rfl, rfl, rfl⟩
  | cons e rest ih =>
    intro n
    obtain ⟨h1, h2, h3⟩ := ih (n + 1)
    refine ⟨?_, ?_, ?_⟩
    · simp only [cloneEntries, h1, List.length_cons]
      omega
    · simp only [cloneEntries, List.map_cons, h2]
    · simp only [cloneEntries, List.map_cons, h3, List.length_cons, List.range']

theorem rxVecPushAll_keeps_front {T : Type} : ∀ (xs : List T) (fuel : Nat) (h : Heap)
    (v : RxVecM T) (n : Nat) (v' : RxVecM T) (h' : Heap) (n' : Nat),
    rxVecPushAll fuel h v xs n = some (v', h', n') →
    ∃ suffix, v'.content = v.content ++ suffix := by
  intro xs
  induction xs with
  | nil =>
    intro fuel h v n v' h' n' hp
    simp only [rxVecPushAll, Option.some.injEq, Prod.mk.injEq] at hp
    obtain ⟨rfl, -, -⟩ := hp
    exact ⟨[], by simp⟩
  | cons x rest ih =>
    intro fuel h v n v' h' n' hp
    simp only [rxVecPushAll] at hp
    cases h1 : rxVecPush fuel h v x n with
    | none => rw [h1] at hp; exact absurd hp (by simp)
    | some r =>
      rw [h1] at hp
      obtain ⟨v1, h1', n1⟩ := r
      dsimp only at hp
      obtain ⟨suffix, hsuf⟩ := ih fuel h1' v1 n1 v' h' n' hp
      unfold rxVecPush at h1
      cases hmd : mdEntries fuel h [] v.dependents with
      | ok hm lm =>
        rw [hmd] at h1
        simp only [Option.some.injEq, Prod.mk.injEq] at h1
        obtain ⟨hv1, -, -⟩ := h1
        refine ⟨RxVecValue.mk n x :: suffix, ?_⟩
        rw [hsuf, ← hv1]
        simp
      | panic => rw [hmd] at h1; exact absurd h1 (by simp)
      | fuelOut => rw [hmd] at h1; exact absurd h1 (by simp)

/-- C8: entries of an `RxVec` keep their stable identifier (indeed their
whole prefix position) across any number of subsequent `push`es, and
`Clone for RxVec` hands the cloned container and every cloned entry fresh,
pairwise-distinct identifiers, all distinct from every identifier the
original holds (given that the original's identifiers were drawn from the
counter, i.e. are below its current value). -/
theorem c8_id_stability_and_fresh_clone {T : Type} (fuel : Nat) (h hp : Heap)
    (v v' : RxVecM T) (xs : List T) (n np : Nat)
    (hpush : rxVecPushAll fuel h v xs n = some (v', hp, np))
    (m : Nat) (hvid : v.id < m) (hids : ∀ e ∈ v.content, e.id < m) :
    (∃ suffix, v'.content = v.content ++ suffix) ∧
    (rxVecClone v m).1.id = m ∧
    (rxVecClone v m).1.dependents = [] ∧
    (rxVecClone v m).1.content.map RxVecValue.value = v.content.map RxVecValue.value ∧
    (m :: (rxVecClone v m).1.content.map RxVecValue.id).Nodup ∧
    (∀ j ∈ m :: (rxVecClone v m).1.content.map RxVecValue.id,
      v.id < j ∧ ∀ e0 ∈ v.content, e0.id < j) ∧
    (rxVecClone v m).2 = m + 1 + v.content.length := by
  obtain ⟨hn2, hval, hid⟩ := cloneEntries_spec v.content (m + 1)
  have hclid : (rxVecClone v m).1.content.map RxVecValue.id =
      List.range' (m + 1) v.content.length := hid
  refine ⟨rxVecPushAll_keeps_front xs fuel h v n v' hp np hpush, rfl, rfl, hval, ?_, ?_, ?_⟩
  · rw [hclid]
    refine List.Nodup.cons ?_ (List.nodup_range' _ _)
    intro hmem
    rw [List.mem_range'_1] at hmem
    omega
  · intro j hj
    rcases List.mem_cons.mp hj with rfl | hj'
    · exact ⟨hvid, fun e0 he0 => hids e0 he0⟩
    · rw [hclid, List.mem_range'_1] at hj'
      exact ⟨by omega, fun e0 he0 => by have := hids e0 he0; omega⟩
  · unfold rxVecClone
    dsimp only
    rw [hn2]

/-- Witness for C8 at a concrete input: one entry (id 1), one push (fresh
id 2) keeps the prefix; a clone at counter 3 gets container id 3 and entry
id 4, all fresh and distinct. -/
theorem c8_witness :
    (rxVecPushAll 10 [] (RxVecM.mk 0 [RxVecValue.mk 1 42] []) [7] 2 =
      some (RxVecM.mk 0 [RxVecValue.mk 1 42, RxVecValue.mk 2 7] [], [], 3) ∧
      (RxVecM.mk 0 [RxVecValue.mk 1 (42 : Nat)] []).id < 3 ∧
      (∀ e ∈ (RxVecM.mk 0 [RxVecValue.mk 1 (42 : Nat)] []).content, e.id < 3)) ∧
    (∃ suffix, (RxVecM.mk 0 [RxVecValue.mk 1 (42 : Nat), RxVecValue.mk 2 7] []).content =
      (RxVecM.mk 0 [RxVecValue.mk 1 (42 : Nat)] []).content ++ suffix) ∧
    (rxVecClone (RxVecM.mk 0 [RxVecValue.mk 1 (42 : Nat)] []) 3).1.id = 3 ∧
    ((3 : Nat) :: (rxVecClone (RxVecM.mk 0 [RxVecValue.mk 1 (42 : Nat)] []) 3).1.content.map
      RxVecValue.id).Nodup := by
  have hpush : rxVecPushAll 10 [] (RxVecM.mk 0 [RxVecValue.mk 1 (42 : Nat)] []) [7] 2 =
      some (RxVecM.mk 0 [RxVecValue.mk 1 42, RxVecValue.mk 2 7] [], [], 3) := by decide
  have hvid : (RxVecM.mk 0 [RxVecValue.mk 1 (42 : Nat)] []).id < 3 := by decide
  have hids : ∀ e ∈ (RxVecM.mk 0 [RxVecValue.mk 1 (42 : Nat)] []).content, e.id < 3 := by decide
  have happ := c8_id_stability_and_fresh_clone 10 [] []
    (RxVecM.mk 0 [RxVecValue.mk 1 (42 : Nat)] [])
    (RxVecM.mk 0 [RxVecValue.mk 1 42, RxVecValue.mk 2 7] []) [7] 2 3 hpush 3 hvid hids
  exact ⟨⟨hpush, hvid, hids⟩, happ.1, happ.2.1, happ.2.2.2.2.1⟩

/-- C10: `Clone for Rx` yields a cell with the same value and an empty
downstream list, and `Clone for RxFn` is exactly `RxFn::new` (dirty fresh
node, no cached input or output, empty downstream).  Consequently the clone
shares no reactive linkage with the original: mutating a fresh clone walks
an empty list and leaves the heap — hence every consumer registered on the
original — untouched, and a tracked read of the clone records the consumer
on the clone's own list only, the original being a distinct, unmodified
value. -/
theorem c10_clone_shares_no_linkage {T : Type} (r : RxM T) (I O : Type) (h0 : Heap)
    (n : Nat) (hfresh : hget h0 n = none) :
    (rxClone r).value = r.value ∧
    (rxClone r).dependents = [] ∧
    rxFnClone I O h0 n = rxFnNew I O h0 n ∧
    (rxFnNew I O h0 n).1 = RxFnState.mk none none n ∧
    hget (rxFnNew I O h0 n).2.1 n = some (Dependent.mk 0 true []) ∧
    (∀ (fuel : Nat) (h : Heap), rxGetMut fuel h (rxClone r) = some (rxClone r, h)) ∧
    (∀ (h : Heap) (a : Nat) (da : Dependent), hget h a = some da →
      rxGet h a (rxClone r) = some (r.value, RxM.mk r.value [(da.generation, a)])) := by
  refine ⟨rfl, rfl, rfl, rfl, hget_append_fresh h0 n _ hfresh, ?_, ?_⟩
  · intro fuel h
    cases fuel with
    | zero => rfl
    | succ fuel => rfl
  · intro h a da ha
    unfold rxGet
    rw [ha]
    rfl

/-- Witness for C10 at a concrete input: a cell holding 5 with one
registered consumer; its clone has the value, no consumers, mutating it
changes nothing, and node id 3 is fresh for the cloned `RxFn`. -/
theorem c10_witness :
    (hget [(0, Dependent.mk 0 true [])] 3 = none) ∧
    (rxClone (RxM.mk (5 : Nat) [(0, 7)])).value = (RxM.mk (5 : Nat) [(0, 7)]).value ∧
    (rxClone (RxM.mk (5 : Nat) [(0, 7)])).dependents = [] ∧
    (∀ (fuel : Nat) (h : Heap), rxGetMut fuel h (rxClone (RxM.mk (5 : Nat) [(0, 7)])) =
      some (rxClone (RxM.mk (5 : Nat) [(0, 7)]), h)) := by
  have hfresh : hget [(0, Dependent.mk 0 true [])] 3 = none := by decide
  have happ := c10_clone_shares_no_linkage (RxM.mk (5 : Nat) [(0, 7)]) Nat Nat
    [(0, Dependent.mk 0 true [])] 3 hfresh
  exact ⟨hfresh, happ.1, happ.2.1, happ.2.2.2.2.2.1⟩

/-- Integer instantiation of the abstract cell-value arithmetic, used for
concrete spreadsheet runs. -/
def intOps : VOps Int :=
  { div := fun x y => x / y, mul := fun x y => x * y, add := fun x y => x + y,
    sub := fun x y => x - y, neg := fun x => -x }

/-- Heap for the cyclic-spreadsheet scenario: toplevel dependent 0 and the
four cells' `RxFn` dependents 1-4, all fresh. -/
def sheetH0 : Heap :=
  [(0, Dependent.mk 0 true []), (1, Dependent.mk 0 true []), (2, Dependent.mk 0 true []),
   (3, Dependent.mk 0 true []), (4, Dependent.mk 0 true [])]

/-- Sheet for the cyclic scenario: `$0 = $1`, `$1 = $0`, cells 2 and 3
empty; nothing borrowed. -/
def sheetS0 : SheetSt Int :=
  { cells :=
      [SheetCell.mk (some (.var 1)) [] (RxFnState.mk none none 1),
       SheetCell.mk (some (.var 0)) [] (RxFnState.mk none none 2),
       SheetCell.mk none [] (RxFnState.mk none none 3),
       SheetCell.mk none [] (RxFnState.mk none none 4)],
    borrowed := [] }

/-- C5, counterexample: evaluating cell 0 of the cyclic sheet (cell 0 reads
cell 1 which re-enters cell 0), the re-entrant second entry returns the
`None` sentinel — but it does NOT register the caller's consumer (cell 1's
dependent, node 2) in cell 0's own `self_dep.downstream` (node 1's list
ends up holding only the toplevel entry `(0, 0)`); the fallback instead
tracks node 2 on cell 0's expression value-cell, whose downstream list ends
up `[(1, 1), (1, 2)]`.  Cell 1's node stores the sentinel as its cached
output, showing the degraded path returned `None` without re-running. -/
theorem c5_counterexample :
    (evalCell intOps 10 0 0 (sheetH0, sheetS0)).1 = none ∧
    depsAt (evalCell intOps 10 0 0 (sheetH0, sheetS0)).2.1 1 = some [(0, 0)] ∧
    ([(0, 0)] : List (Nat × Nat)).all (fun e => decide (e.2 ≠ 2)) = true ∧
    ((evalCell intOps 10 0 0 (sheetH0, sheetS0)).2.2.cells.get? 0).map SheetCell.exprDeps =
      some [(1, 1), (1, 2)] ∧
    ((evalCell intOps 10 0 0 (sheetH0, sheetS0)).2.2.cells.get? 1).map SheetCell.fn =
      some (RxFnState.mk (some ()) (some none) 2) := by
  decide

/-- C5, amended: when `eval_cell` re-enters a cell whose `RxFn` is already
borrowed for execution, it does not touch the `RxFn` (no re-run, no Step A
on the node's own dependent list) and returns the `None` sentinel; instead
it tracks the caller's active consumer on the cell's expression value-cell
(`cell.1`), registering it there exactly once, so that mutating the
participants still invalidates the cycle.  On the concrete cyclic sheet the
outermost invocation completes normally and each closure runs exactly once
(both generations end at 1) with all borrows released. -/
theorem c5_reentry_tracks_expr_cell {V : Type} [DecidableEq V] (ops : VOps V)
    (fuel a i : Nat) (h : Heap) (s : SheetSt V) (cell : SheetCell V) (da : Dependent)
    (hcell : s.cells.get? i = some cell) (hbor : i ∈ s.borrowed)
    (ha : hget h a = some da)
    (hcount : cell.exprDeps.countP (fun e => decide (e.2 = a)) ≤ 1) :
    evalCell ops (fuel + 1) a i (h, s) =
      (none, (h, setCell s i { cell with exprDeps := track h a da.generation cell.exprDeps })) ∧
    (track h a da.generation cell.exprDeps).countP (fun e => decide (e.2 = a)) = 1 ∧
    genAt (evalCell intOps 10 0 0 (sheetH0, sheetS0)).2.1 1 = some 1 ∧
    genAt (evalCell intOps 10 0 0 (sheetH0, sheetS0)).2.1 2 = some 1 ∧
    (evalCell intOps 10 0 0 (sheetH0, sheetS0)).2.2.borrowed = [] := by
  refine ⟨?_, track_countP ha da.generation cell.exprDeps hcount, by decide, by decide, by decide⟩
  unfold evalCell
  rw [hcell]
  dsimp only
  rw [if_pos hbor, ha]

/-- Witness for C5's amended theorem at a concrete input: the mid-cycle
state in which cell 0 and cell 1 are both being evaluated and cell 1's
consumer (node 2) re-enters cell 0. -/
theorem c5_witness :
    ((SheetSt.mk
        [SheetCell.mk (some (.var 1)) [(1, 1)] (RxFnState.mk (some ()) none 1),
         SheetCell.mk (some (.var 0)) [(1, 2)] (RxFnState.mk (some ()) none 2),
         SheetCell.mk none [] (RxFnState.mk none none 3),
         SheetCell.mk none [] (RxFnState.mk (none : Option Unit) (none : Option (Option Int)) 4)]
        [1, 0]).cells.get? 0 =
      some (SheetCell.mk (some (.var 1)) [(1, 1)] (RxFnState.mk (some ()) none 1)) ∧
      (0 : Nat) ∈ [1, 0] ∧
      hget [(0, Dependent.mk 0 true []), (1, Dependent.mk 1 false [(0, 0)]),
            (2, Dependent.mk 1 false [(1, 1)]), (3, Dependent.mk 0 true []),
            (4, Dependent.mk 0 true [])] 2 = some (Dependent.mk 1 false [(1, 1)])) ∧
    evalCell intOps 8 2 0
      ([(0, Dependent.mk 0 true []), (1, Dependent.mk 1 false [(0, 0)]),
        (2, Dependent.mk 1 false [(1, 1)]), (3, Dependent.mk 0 true []),
        (4, Dependent.mk 0 true [])],
       SheetSt.mk
        [SheetCell.mk (some (.var 1)) [(1, 1)] (RxFnState.mk (some ()) none 1),
         SheetCell.mk (some (.var 0)) [(1, 2)] (RxFnState.mk (some ()) none 2),
         SheetCell.mk none [] (RxFnState.mk none none 3),
         SheetCell.mk none [] (RxFnState.mk none none 4)]
        [1, 0]) =
      (none,
       ([(0, Dependent.mk 0 true []), (1, Dependent.mk 1 false [(0, 0)]),
         (2, Dependent.mk 1 false [(1, 1)]), (3, Dependent.mk 0 true []),
         (4, Dependent.mk 0 true [])],
        setCell
          (SheetSt.mk
            [SheetCell.mk (some (.var 1)) [(1, 1)] (RxFnState.mk (some ()) none 1),
             SheetCell.mk (some (.var 0)) [(1, 2)] (RxFnState.mk (some ()) none 2),
             SheetCell.mk none [] (RxFnState.mk none none 3),
             SheetCell.mk none [] (RxFnState.mk none none 4)]
            [1, 0]) 0
          (SheetCell.mk (some (.var 1))
            (track [(0, Dependent.mk 0 true []), (1, Dependent.mk 1 false [(0, 0)]),
                    (2, Dependent.mk 1 false [(1, 1)]), (3, Dependent.mk 0 true []),
                    (4, Dependent.mk 0 true [])] 2 1 [(1, 1)])
            (RxFnState.mk (some ()) none 1)))) := by
  have hcell : (SheetSt.mk
      [SheetCell.mk (some (.var 1)) [(1, 1)] (RxFnState.mk (some ()) none 1),
       SheetCell.mk (some (.var 0)) [(1, 2)] (RxFnState.mk (some ()) none 2),
       SheetCell.mk none [] (RxFnState.mk none none 3),
       SheetCell.mk none [] (RxFnState.mk (none : Option Unit) (none : Option (Option Int)) 4)]
      [1, 0]).cells.get? 0 =
      some (SheetCell.mk (some (.var 1)) [(1, 1)] (RxFnState.mk (some ()) none 1)) := by decide
  have hbor : (0 : Nat) ∈ [1, 0] := by decide
  have ha : hget [(0, Dependent.mk 0 true []), (1, Dependent.mk 1 false [(0, 0)]),
      (2, Dependent.mk 1 false [(1, 1)]), (3, Dependent.mk 0 true []),
      (4, Dependent.mk 0 true [])] 2 = some (Dependent.mk 1 false [(1, 1)]) := by decide
  have hcount : ([(1, 1)] : List (Nat × Nat)).countP (fun e => decide (e.2 = 2)) ≤ 1 := by
    decide
  have happ := c5_reentry_tracks_expr_cell intOps 7 2 0
    [(0, Dependent.mk 0 true []), (1, Dependent.mk 1 false [(0, 0)]),
     (2, Dependent.mk 1 false [(1, 1)]), (3, Dependent.mk 0 true []),
     (4, Dependent.mk 0 true [])]
    (SheetSt.mk
      [SheetCell.mk (some (.var 1)) [(1, 1)] (RxFnState.mk (some ()) none 1),
       SheetCell.mk (some (.var 0)) [(1, 2)] (RxFnState.mk (some ()) none 2),
       SheetCell.mk none [] (RxFnState.mk none none 3),
       SheetCell.mk none [] (RxFnState.mk none none 4)]
      [1, 0])
    (SheetCell.mk (some (.var 1)) [(1, 1)] (RxFnState.mk (some ()) none 1))
    (Dependent.mk 1 false [(1, 1)]) hcell hbor ha hcount
  exact ⟨⟨hcell, hbor, ha⟩, happ.1⟩
